import Mathlib

/-!
Verification development for the silverbullet-tagview plug.

The definitions in the first part of this file are a shallow embedding of
the TypeScript source:
  * `getTagTree` and `getOutlineTree` from `api.ts`
    (the variant using `index.queryLuaObjects`, grouped folder/tag sort
    order, and the header outline builder),
  * `getPlugConfig` from `config.ts`.

Modelling conventions:
  * JavaScript strings are modelled as Lean `String` (a list of
    characters); `String.prototype.length` and character offsets count
    characters rather than UTF-16 code units.
  * `localeCompare` and the default `Array.prototype.sort()` string order
    are both modelled by code-point lexicographic comparison (`strLe`).
    JavaScript `Array.prototype.sort` is a stable sort, and a stable sort
    with respect to a consistent comparator has a unique result, so it is
    modelled by stable insertion sort (`List.insertionSort`).
  * The `async`/exception boundary is modelled with `Except`: the
    upstream fetch is an arbitrary `Except` value, and a builder result
    carries a `notified` flag recording whether the error branch fired
    `editor.flashNotification`.
  * JavaScript objects coming from the index are modelled by fields of
    type `Option JVal`, so that missing fields and non-string fields are
    both representable.
-/

/-! ### Character-level string helpers -/

/-- Code-point comparison on character lists; model of the JavaScript
string comparison used by `localeCompare` and default `sort()`. -/
def charsLe : List Char → List Char → Bool
  | [], _ => true
  | _ :: _, [] => false
  | a :: as, b :: bs =>
    if a.toNat < b.toNat then true
    else if b.toNat < a.toNat then false
    else charsLe as bs

/-- String order used to model `a.localeCompare(b) <= 0` and the default
`Array.prototype.sort()` comparison. -/
def strLe (a b : String) : Prop := charsLe a.data b.data = true

instance : DecidableRel strLe := fun a b => by unfold strLe; infer_instance

/-- Model of `str.split(sep)` for a single-character separator, on the
underlying character list. -/
def splitCh (sep : Char) : List Char → List (List Char)
  | [] => [[]]
  | c :: cs =>
    if c = sep then [] :: splitCh sep cs
    else
      match splitCh sep cs with
      | [] => [[c]]
      | p :: ps => (c :: p) :: ps

/-- Model of `parts.join(sep)` on character lists. -/
def joinCh (sep : Char) : List (List Char) → List Char
  | [] => []
  | [p] => p
  | p :: q :: ps => p ++ sep :: joinCh sep (q :: ps)

/-- Model of `tag.split("/")`. -/
def splitSlash (s : String) : List String :=
  (splitCh '/' s.data).map (fun l => ⟨l⟩)

/-- Model of `parts.join("/")`. -/
def joinSlash (ps : List String) : String :=
  ⟨joinCh '/' (ps.map String.data)⟩

/-- Model of
`p.includes("/") ? p.substring(p.lastIndexOf("/") + 1) : p`:
the final `/`-separated segment of a string. -/
def lastSeg (s : String) : String :=
  ⟨(splitCh '/' s.data).getLastD s.data⟩

/-! ### Node data model

The TypeScript source uses object literals discriminated by a `nodeType`
string; we use one record with a `nodeType` tag and default values for
the fields that a given node kind does not use. -/

inductive NodeType where
  | folder | tag | page | header
deriving DecidableEq, Repr

structure NodeData where
  name : String
  title : String
  nodeType : NodeType
  pageCount : Nat := 0
  level : Nat := 0
  pos : Nat := 0
deriving DecidableEq, Repr

inductive TreeNode where
  | mk (data : NodeData) (nodes : List TreeNode)
deriving Repr

def TreeNode.data : TreeNode → NodeData
  | .mk d _ => d

def TreeNode.nodes : TreeNode → List TreeNode
  | .mk _ ns => ns

/-- The `typeOrder` map of the corrected sibling sort in `api.ts`:
`{ folder: 0, tag: 0, page: 1 }`, with `?? 99` for anything else. -/
def rankOf : NodeType → Nat
  | .folder => 0
  | .tag => 0
  | .page => 1
  | .header => 99

/-- The sibling comparator of `getTagTree`: sort by `typeOrder` rank,
then alphabetically by title.  `siblingR a b` states that `a` may come
before `b` (comparator value at most 0). -/
def siblingR (a b : TreeNode) : Prop :=
  rankOf a.data.nodeType < rankOf b.data.nodeType ∨
    (rankOf a.data.nodeType = rankOf b.data.nodeType ∧ strLe a.data.title b.data.title)

instance : DecidableRel siblingR := fun a b => by unfold siblingR; infer_instance

/-- Comparison of page nodes by full page name, the order produced by
`Array.from(pages).sort()`. -/
def nameLe (a b : TreeNode) : Prop := strLe a.data.name b.data.name

instance : DecidableRel nameLe := fun a b => by unfold nameLe; infer_instance

/-- Model of the in-place `parent.nodes.sort(...)` / `node.nodes.sort(...)`
calls (stable sort with respect to the sibling comparator). -/
def sortSiblings (ns : List TreeNode) : List TreeNode :=
  List.insertionSort siblingR ns

/-! ### The tag index input -/

/-- A JavaScript value as far as the validity check
`typeof x === "string"` can see it. -/
inductive JVal where
  | str : String → JVal
  | other : JVal
deriving DecidableEq, Repr

/-- An object returned by `index.queryLuaObjects("tag", ...)`; the fields
`name` and `page` may be absent or hold non-string values. -/
structure TagIndexEntry where
  name : Option JVal := none
  page : Option JVal := none
deriving DecidableEq, Repr

/-- The validity test of the processing loop:
`entry && typeof entry.name === "string" && entry.name &&
 typeof entry.page === "string" && entry.page`.
A list element that is `none` models a null/undefined entry. -/
def validEntry : Option TagIndexEntry → Option (String × String)
  | none => none
  | some e =>
    match e.name, e.page with
    | some (.str n), some (.str p) =>
      if n ≠ "" ∧ p ≠ "" then some (n, p) else none
    | _, _ => none

/-- One step of building `tagPageMap`: `Map.set` appends a new key at the
end, `Set.add` appends a new page at the end of its dedup-ed list. -/
def addEntry (m : List (String × List String)) (tag pg : String) :
    List (String × List String) :=
  match m with
  | [] => [(tag, [pg])]
  | (t, ps) :: rest =>
    if t = tag then (t, if pg ∈ ps then ps else ps ++ [pg]) :: rest
    else (t, ps) :: addEntry rest tag pg

/-- The `tagPageMap` of `getTagTree`: tag name to the insertion-ordered
list of its distinct page names, skipping invalid entries. -/
def tagPageMap (es : List (Option TagIndexEntry)) : List (String × List String) :=
  es.foldl
    (fun m e =>
      match validEntry e with
      | some (t, p) => addEntry m t p
      | none => m)
    []

/-- The keys of the map, in insertion order (`uniqueTags` before sorting). -/
def tagsOf (m : List (String × List String)) : List String := m.map Prod.fst

/-- Model of `tagCounts[tag] || 0` (`pageSet.size`, or 0 for a missing tag). -/
def tagCountD (m : List (String × List String)) (t : String) : Nat :=
  ((List.lookup t m).map List.length).getD 0

/-- Model of `Array.from(tagPageMap.get(tag) || new Set()).sort()`. -/
def pagesSorted (m : List (String × List String)) (t : String) : List String :=
  List.insertionSort strLe ((List.lookup t m).getD [])

/-- A freshly created page node (always a leaf). -/
def pageNode (p : String) : TreeNode :=
  .mk ⟨p, lastSeg p, .page, 0, 0, 0⟩ []

/-- Replace the first element satisfying `p` (the node delivered by
`parent.nodes.find(...)`, which the source then mutates in place). -/
def replaceFind (p : TreeNode → Bool) (f : TreeNode → TreeNode) :
    List TreeNode → List TreeNode
  | [] => []
  | c :: cs => if p c then f c :: cs else c :: replaceFind p f cs

/-- The predicate of `parent.nodes.find((child) => child.data.title === title
&& child.data.name === currentPath)`. -/
def findPred (t cp : String) (c : TreeNode) : Bool :=
  decide (c.data.title = t ∧ c.data.name = cp)

/-- The body of the `node exists` branch at the leaf segment of a tag:
folder nodes are upgraded to tag nodes and given the tag page children
that are not already present; tag nodes get the page children if they
have none yet and a refreshed page count; any other node is only
re-sorted.  The trailing `node.nodes.sort(...)` of the source runs in
every case. -/
def upgradeLeaf (m : List (String × List String)) (tag cp t : String)
    (n : TreeNode) : TreeNode :=
  if n.data.nodeType = .folder then
    .mk ⟨cp, t, .tag, tagCountD m tag, 0, 0⟩
      (sortSiblings (n.nodes ++
        (((pagesSorted m tag).filter
            (fun pg => ¬ pg ∈ n.nodes.map (fun c => c.data.name))).map pageNode)))
  else if n.data.nodeType = .tag then
    .mk { n.data with pageCount := tagCountD m tag }
      (sortSiblings
        (if (n.nodes.filter (fun c => c.data.nodeType = .page)).isEmpty
         then n.nodes ++ (pagesSorted m tag).map pageNode
         else n.nodes))
  else .mk n.data (sortSiblings n.nodes)

/-- The `parts.reduce(...)` walk of `getTagTree`, inserting one tag into
the forest.  `done` holds the segments already consumed, so the
cumulative path of the current segment `t` is `joinSlash (done ++ [t])`.
The mutation of the found node is rendered by `replaceFind`; in the
descend case the source sorts the children of the found node and then
continues the reduction inside that node. -/
def insertParts (m : List (String × List String)) (tag : String) :
    List String → List String → List TreeNode → List TreeNode
  | [], _, forest => forest
  | [t], done, forest =>
    match forest.find? (findPred t (joinSlash (done ++ [t]))) with
    | some _ =>
      replaceFind (findPred t (joinSlash (done ++ [t])))
        (upgradeLeaf m tag (joinSlash (done ++ [t])) t) forest
    | none =>
      sortSiblings (forest ++
        [.mk ⟨joinSlash (done ++ [t]), t, .tag, tagCountD m tag, 0, 0⟩
          ((pagesSorted m tag).map pageNode)])
  | t :: t' :: rest, done, forest =>
    match forest.find? (findPred t (joinSlash (done ++ [t]))) with
    | some _ =>
      replaceFind (findPred t (joinSlash (done ++ [t])))
        (fun n => .mk n.data
          (insertParts m tag (t' :: rest) (done ++ [t]) (sortSiblings n.nodes)))
        forest
    | none =>
      sortSiblings (forest ++
        [.mk ⟨joinSlash (done ++ [t]), t, .folder, 0, 0, 0⟩
          (insertParts m tag (t' :: rest) (done ++ [t]) [])])

/-- The pure core of `getTagTree`: group the entries, sort the unique
tags, and fold every tag into the forest. -/
def buildTagTree (es : List (Option TagIndexEntry)) : List TreeNode :=
  let m := tagPageMap es
  let uniqueTags := List.insertionSort strLe (tagsOf m)
  uniqueTags.foldl (fun forest tag => insertParts m tag (splitSlash tag) [] forest) []

/-- Result of a builder: the `{ nodes: ... }` object plus a flag recording
whether the error notification was flashed. -/
structure TreeResult where
  nodes : List TreeNode
  notified : Bool
deriving Repr

/-- Model of `getTagTree`: the upstream `index.queryLuaObjects` call
either returns the entry list or throws; the catch block logs, notifies
and returns the empty forest. -/
def getTagTree (fetch : Except String (List (Option TagIndexEntry))) : TreeResult :=
  match fetch with
  | .error _ => ⟨[], true⟩
  | .ok es => ⟨buildTagTree es, false⟩

/-! ### The outline builder -/

/-- Whitespace as matched by the JavaScript `\s` character class
(restricted to the code points that can appear in practice here). -/
def isJsWs (c : Char) : Bool :=
  c = ' ' || c = '\t' || c = '\n' || c = '\r' ||
  c = '\x0b' || c = '\x0c' || c = ' ' || c = '﻿'

/-- Model of `line.match(/^(#{1,6})\s+(.+)$/)` followed by
`title.trim()`: the hash prefix gives the level, and `\s+` demands at
least one whitespace character right after the hashes; `.` does not
match a carriage return, and when the remainder after the hashes is all
whitespace the greedy `\s+` backtracks one character (so it needs two),
which then trims to an empty title. -/
def parseHeader (line : List Char) : Option (Nat × String) :=
  let hs := line.takeWhile (fun c => c = '#')
  let rest := line.drop hs.length
  let ws := rest.takeWhile isJsWs
  let body := rest.drop ws.length
  if 1 ≤ hs.length ∧ hs.length ≤ 6 ∧ 1 ≤ ws.length then
    if body ≠ [] then
      if ¬ '\r' ∈ body then
        some (hs.length, ⟨(body.dropWhile isJsWs).reverse.dropWhile isJsWs |>.reverse⟩)
      else none
    else if 2 ≤ ws.length ∧ ws.getLastD ' ' ≠ '\r' ∧ ws.getLastD ' ' ≠ '\n' then
      some (hs.length, "")
    else none
  else none

/-- The header scan of `getOutlineTree`: split the text into lines, match
each against the header pattern, and record level, trimmed title and the
running character offset (`currentPos += line.length + 1`). -/
def scanHeaders (text : String) : List NodeData :=
  let lines := splitCh '\n' text.data
  (lines.enum.foldl
    (fun (acc : List NodeData × Nat) li =>
      let (i, line) := li
      let acc' :=
        match parseHeader line with
        | some (lvl, title) =>
          acc.1 ++ [⟨"header-" ++ toString i, title, .header, 0, lvl, acc.2⟩]
        | none => acc.1
      (acc', acc.2 + line.length + 1))
    ([], 0)).1

/-- Insertion of one header into the forest under construction.  In the
source the stack of open ancestors is, at every moment, exactly the
rightmost spine of the forest (each stack entry is the last child of the
entry below it), and the `while`-pop attaches the new header under the
deepest spine node of strictly smaller level; this function performs that
spine descent directly. -/
def insertHeader (h : NodeData) : List TreeNode → List TreeNode
  | [] => [.mk h []]
  | [.mk d ns] =>
    if d.level < h.level then [.mk d (insertHeader h ns)]
    else [.mk d ns, .mk h []]
  | n :: n' :: rest => n :: insertHeader h (n' :: rest)

/-- The hierarchy construction loop of `getOutlineTree`. -/
def buildOutline (hs : List NodeData) : List TreeNode :=
  hs.foldl (fun forest h => insertHeader h forest) []

/-- Model of `getOutlineTree`: `editor.getText()` either yields the page
text or throws; the catch block notifies and returns the empty forest. -/
def getOutlineTree (fetch : Except String String) : TreeResult :=
  match fetch with
  | .error _ => ⟨[], true⟩
  | .ok text => ⟨buildOutline (scanHeaders text), false⟩

/-! ### Configuration (`config.ts`) -/

inductive Position where
  | lhs | rhs | bhs | modal
deriving DecidableEq, Repr

structure TagViewConfig where
  position : Position
  size : Int
deriving DecidableEq, Repr

/-- A space-config value as far as the zod schema can distinguish it. -/
inductive CVal where
  | num : Int → CVal
  | strv : String → CVal
  | other : CVal
deriving DecidableEq, Repr

/-- The raw user settings object (fields possibly absent). -/
structure UserConfig where
  position : Option CVal := none
  size : Option CVal := none
deriving DecidableEq, Repr

/-- `z.enum(["lhs","rhs","bhs","modal"]).optional().default("lhs")`. -/
def parsePosition : Option CVal → Option Position
  | none => some .lhs
  | some (.strv "lhs") => some .lhs
  | some (.strv "rhs") => some .rhs
  | some (.strv "bhs") => some .bhs
  | some (.strv "modal") => some .modal
  | some _ => none

/-- `z.number().gt(0).optional().default(320)`. -/
def parseSize : Option CVal → Option Int
  | none => some 320
  | some (.num n) => if 0 < n then some n else none
  | some _ => none

/-- `tagViewConfigSchema.parse(userConfig)`: `none` models a thrown
`ZodError`. -/
def parseConfig (u : UserConfig) : Option TagViewConfig :=
  match parsePosition u.position, parseSize u.size with
  | some p, some s => some ⟨p, s⟩
  | _, _ => none

/-- Model of `getPlugConfig`: on a validation error it flashes the error
notification and falls back to `tagViewConfigSchema.parse(\x7b\x7d)`,
which is the full default configuration. -/
def getPlugConfig (u : UserConfig) : TagViewConfig × Bool :=
  match parseConfig u with
  | some c => (c, false)
  | none => (⟨.lhs, 320⟩, true)

/-- Number of error notifications flashed by a sequence of
`getPlugConfig` calls in one session (`config.ts` keeps no state between
calls). -/
def configNotifications (calls : List UserConfig) : Nat :=
  (calls.map (fun u => (getPlugConfig u).2)).count true

/-! ### Specification-side definitions -/

/-- All page names recorded anywhere in the map. -/
def pagesU (m : List (String × List String)) : List String :=
  m.flatMap Prod.snd

/-- A string containing no `/` (a path segment). -/
def slashFree (s : String) : Prop := ¬ '/' ∈ s.data

instance : DecidablePred slashFree := fun s => by unfold slashFree; infer_instance

/-- The nonempty cumulative prefix paths of a tag name: for `a/b/c` these
are `a`, `a/b` and `a/b/c`. -/
def cumPaths (t : String) : List String :=
  ((splitSlash t).inits.drop 1).map joinSlash

/-- Cumulative prefix paths of all recorded tags. -/
def allCumPaths (m : List (String × List String)) : List String :=
  (tagsOf m).flatMap cumPaths

/-- The input is collision-free when no recorded page name coincides with
a cumulative prefix path of a recorded tag. -/
def CollisionFree (es : List (Option TagIndexEntry)) : Prop :=
  ∀ q ∈ allCumPaths (tagPageMap es), ¬ q ∈ pagesU (tagPageMap es)

instance (es : List (Option TagIndexEntry)) : Decidable (CollisionFree es) := by
  unfold CollisionFree; infer_instance

/-- Number of distinct page names associated with tag `t` by the valid
entries of the raw input. -/
def distinctPageCount (es : List (Option TagIndexEntry)) (t : String) : Nat :=
  ((((es.filterMap validEntry).filter (fun pr => pr.1 = t)).map Prod.snd).dedup).length

/-- Membership of a node anywhere in a forest. -/
inductive InF : TreeNode → List TreeNode → Prop where
  | here {n : TreeNode} {F : List TreeNode} : n ∈ F → InF n F
  | deeper {n p : TreeNode} {F : List TreeNode} : p ∈ F → InF n p.nodes → InF n F

/-- Two sibling nodes that the `find` of the tree builder would not
confuse: they differ in title or in name. -/
def distinctTN (a b : TreeNode) : Prop :=
  ¬ (a.data.title = b.data.title ∧ a.data.name = b.data.name)

instance : DecidableRel distinctTN := fun a b => by unfold distinctTN; infer_instance

/-- A chain of folder/tag nodes along the segment path of a tag, ending
in a tag node; `done` is the already-consumed context. -/
def Reaches : List TreeNode → List String → List String → Prop
  | _, _, [] => True
  | F, done, [s] =>
    ∃ n ∈ F, n.data.title = s ∧ n.data.name = joinSlash (done ++ [s]) ∧
      n.data.nodeType = .tag
  | F, done, s :: s' :: rest =>
    ∃ n ∈ F, n.data.title = s ∧ n.data.name = joinSlash (done ++ [s]) ∧
      (n.data.nodeType = .folder ∨ n.data.nodeType = .tag) ∧
      Reaches n.nodes (done ++ [s]) (s' :: rest)

/-- Number of nodes at exact depth `k` below the forest roots (roots are
at depth 0) whose data satisfies `p`. -/
def countAtDepth : Nat → (NodeData → Bool) → List TreeNode → Nat
  | 0, p, F => (F.filter (fun n => p n.data)).length
  | k + 1, p, F => (F.map (fun n => countAtDepth k p n.nodes)).sum

/-- Predicate for a folder-or-tag node carrying a given full path name. -/
def ftNamed (s : String) (d : NodeData) : Bool :=
  d.name = s ∧ (d.nodeType = .folder ∨ d.nodeType = .tag)

/-- Sibling ordering invariant that the tag tree builder maintains:
either the list is sorted by the sibling comparator, or it consists of
page nodes sorted by full page name (the state of the children of a
freshly created tag node). -/
def ChildOrd (ns : List TreeNode) : Prop :=
  ns.Sorted siblingR ∨ ((∀ c ∈ ns, c.data.nodeType = .page) ∧ ns.Sorted nameLe)

/-- Ordering invariant over a whole tree. -/
inductive OrdN : TreeNode → Prop where
  | mk {d : NodeData} {ns : List TreeNode} :
      (∀ c ∈ ns, OrdN c) → ChildOrd ns → OrdN (.mk d ns)

/-- Page-count invariant over a whole tree: every tag node records the
number of distinct pages of the tag named by its `name` field. -/
inductive TCN (m : List (String × List String)) : TreeNode → Prop where
  | mk {d : NodeData} {ns : List TreeNode} :
      (∀ c ∈ ns, TCN m c) →
      (d.nodeType = .tag → d.pageCount = tagCountD m d.name) →
      TCN m (.mk d ns)

/-- Structural well-formedness of a node of the tag tree at context `C`
(the titles of its ancestors).  Folder and tag nodes sit at the position
their slash-path encodes and their names are cumulative tag prefixes;
page nodes are leaves named by recorded pages; siblings are pairwise
distinguishable by (title, name). -/
inductive WFN (m : List (String × List String)) : List String → TreeNode → Prop where
  | page {C : List String} {p : String} :
      p ∈ pagesU m →
      WFN m C (.mk ⟨p, lastSeg p, .page, 0, 0, 0⟩ [])
  | folder {C : List String} {t : String} {ns : List TreeNode} :
      slashFree t →
      joinSlash (C ++ [t]) ∈ allCumPaths m →
      (∀ c ∈ ns, WFN m (C ++ [t]) c) →
      ns.Pairwise distinctTN →
      WFN m C (.mk ⟨joinSlash (C ++ [t]), t, .folder, 0, 0, 0⟩ ns)
  | tag {C : List String} {t : String} {ns : List TreeNode} :
      slashFree t →
      joinSlash (C ++ [t]) ∈ allCumPaths m →
      (∀ c ∈ ns, WFN m (C ++ [t]) c) →
      ns.Pairwise distinctTN →
      WFN m C (.mk ⟨joinSlash (C ++ [t]), t, .tag, tagCountD m (joinSlash (C ++ [t])), 0, 0⟩ ns)

mutual
/-- Preorder flattening of a tree to the list of its node data. -/
def flattenT : TreeNode → List NodeData
  | .mk d ns => d :: flattenF ns
/-- Preorder flattening of a forest to the list of its node data. -/
def flattenF : List TreeNode → List NodeData
  | [] => []
  | n :: ns => flattenT n ++ flattenF ns
end

/-- The data of the forest roots. -/
def rootsData (F : List TreeNode) : List NodeData := F.map TreeNode.data

/-- `p` is the data of some node of the forest having a child with
data `c`. -/
def ParentChild (F : List TreeNode) (p c : NodeData) : Prop :=
  ∃ n, InF n F ∧ n.data = p ∧ ∃ ch ∈ n.nodes, ch.data = c

/-- The `pageSet` of a tag as recorded in the map (empty if absent). -/
def pagesOfM (m : List (String × List String)) (t : String) : List String :=
  (List.lookup t m).getD []

/-- Reference form of the outline hierarchy: a header owns the maximal
following run of strictly deeper headers as its subtree; the remainder
restarts at the same level. -/
def buildO : List NodeData → List TreeNode
  | [] => []
  | h :: t =>
    .mk h (buildO (t.takeWhile (fun x => h.level < x.level))) ::
      buildO (t.dropWhile (fun x => h.level < x.level))
  termination_by l => l.length
  decreasing_by
  · simpa using Nat.lt_succ_of_le (List.Sublist.length_le (List.takeWhile_sublist _))
  · simpa using Nat.lt_succ_of_le (List.Sublist.length_le (List.dropWhile_sublist _))

/-- The nearest preceding header of strictly smaller level. -/
def nearestSmaller (pre : List NodeData) (lvl : Nat) : Option NodeData :=
  (pre.filter (fun h => h.level < lvl)).getLast?

/-- A well-formed index entry with the given tag and page names. -/
def mkE (n p : String) : Option TagIndexEntry := some ⟨some (.str n), some (.str p)⟩

/-- Input of the concrete tag-tree scenario: tags `a/b`, `a/c`, `x` with
pages p1; p2, p3; p1. -/
def scenarioEntries : List (Option TagIndexEntry) :=
  [mkE "a/b" "p1", mkE "a/c" "p2", mkE "a/c" "p3", mkE "x" "p1"]

/-- An input on which the tag `a/b` collides with the page `a/b` recorded
under the tag `a`. -/
def collideEntries : List (Option TagIndexEntry) := [mkE "a" "a/b", mkE "a/b" "x"]

/-- An input whose tag `x` has pages whose name order differs from their
title order. -/
def titleOrderEntries : List (Option TagIndexEntry) := [mkE "x" "b/a", mkE "x" "a/z"]

/-- A settings object that fails schema validation. -/
def badConfig : UserConfig := ⟨some .other, none⟩

/-- The document text of the concrete outline scenario. -/
def outlineText : String := "# A\n## B\ntext\n# C"

/-- A two-header document whose outline nests the second header under
the first. -/
def hdrText : String := "# A\n## B"

/-! ### Basic lemmas -/

@[simp] theorem TreeNode.data_mk (d : NodeData) (ns : List TreeNode) :
    (TreeNode.mk d ns).data = d := rfl

@[simp] theorem TreeNode.nodes_mk (d : NodeData) (ns : List TreeNode) :
    (TreeNode.mk d ns).nodes = ns := rfl

theorem charsLe_cons {a b : Char} {as bs : List Char} :
    charsLe (a :: as) (b :: bs) = true ↔
      (a.toNat < b.toNat ∨ (a.toNat = b.toNat ∧ charsLe as bs = true)) := by
  simp only [charsLe]
  split_ifs with h1 h2
  · simp [h1]
  · have : ¬ a.toNat = b.toNat := by omega
    simp [h1, h2, this]
  · have : a.toNat = b.toNat := by omega
    simp [h1, this]

theorem charsLe_total : ∀ (a b : List Char), charsLe a b = true ∨ charsLe b a = true
  | [], _ => Or.inl rfl
  | _ :: _, [] => Or.inr rfl
  | a :: as, b :: bs => by
    rcases Nat.lt_trichotomy a.toNat b.toNat with h | h | h
    · exact Or.inl (charsLe_cons.mpr (Or.inl h))
    · rcases charsLe_total as bs with h' | h'
      · exact Or.inl (charsLe_cons.mpr (Or.inr ⟨h, h'⟩))
      · exact Or.inr (charsLe_cons.mpr (Or.inr ⟨h.symm, h'⟩))
    · exact Or.inr (charsLe_cons.mpr (Or.inl h))

theorem charsLe_trans :
    ∀ (a b c : List Char), charsLe a b = true → charsLe b c = true → charsLe a c = true
  | [], _, _, _, _ => rfl
  | _ :: _, [], _, hab, _ => by simp [charsLe] at hab
  | _ :: _, _ :: _, [], _, hbc => by simp [charsLe] at hbc
  | a :: as, b :: bs, c :: cs, hab, hbc => by
    rcases charsLe_cons.mp hab with h1 | ⟨h1, h1'⟩ <;>
      rcases charsLe_cons.mp hbc with h2 | ⟨h2, h2'⟩
    · exact charsLe_cons.mpr (Or.inl (by omega))
    · exact charsLe_cons.mpr (Or.inl (by omega))
    · exact charsLe_cons.mpr (Or.inl (by omega))
    · exact charsLe_cons.mpr (Or.inr ⟨by omega, charsLe_trans as bs cs h1' h2'⟩)

instance : IsTotal String strLe := ⟨fun a b => charsLe_total a.data b.data⟩

instance : IsTrans String strLe :=
  ⟨fun a b c hab hbc => charsLe_trans a.data b.data c.data hab hbc⟩

instance : IsTotal TreeNode nameLe := ⟨fun _ _ => charsLe_total _ _⟩

instance : IsTrans TreeNode nameLe := ⟨fun _ _ _ hab hbc => charsLe_trans _ _ _ hab hbc⟩

instance : IsTotal TreeNode siblingR := by
  refine ⟨fun a b => ?_⟩
  rcases Nat.lt_trichotomy (rankOf a.data.nodeType) (rankOf b.data.nodeType) with h | h | h
  · exact Or.inl (Or.inl h)
  · rcases charsLe_total a.data.title.data b.data.title.data with h' | h'
    · exact Or.inl (Or.inr ⟨h, h'⟩)
    · exact Or.inr (Or.inr ⟨h.symm, h'⟩)
  · exact Or.inr (Or.inl h)

instance : IsTrans TreeNode siblingR := by
  refine ⟨fun a b c hab hbc => ?_⟩
  rcases hab with h1 | ⟨h1, h1'⟩ <;> rcases hbc with h2 | ⟨h2, h2'⟩
  · exact Or.inl (by omega)
  · exact Or.inl (by omega)
  · exact Or.inl (by omega)
  · exact Or.inr ⟨by omega, charsLe_trans _ _ _ h1' h2'⟩

theorem splitCh_ne_nil (sep : Char) (l : List Char) : splitCh sep l ≠ [] := by
  cases l with
  | nil => simp [splitCh]
  | cons c cs =>
    simp only [splitCh]
    split_ifs
    · simp
    · cases h : splitCh sep cs <;> simp

theorem joinCh_splitCh (sep : Char) : ∀ (l : List Char), joinCh sep (splitCh sep l) = l
  | [] => rfl
  | c :: cs => by
    have ih := joinCh_splitCh sep cs
    simp only [splitCh]
    split_ifs with hc
    · obtain ⟨p, ps, hps⟩ := List.exists_cons_of_ne_nil (splitCh_ne_nil sep cs)
    
      rw [hps] at ih ⊢
      subst hc
      simp [joinCh, ih]
    · obtain ⟨p, ps, hps⟩ := List.exists_cons_of_ne_nil (splitCh_ne_nil sep cs)
      rw [hps] at ih ⊢
      cases ps with
      | nil => simpa [joinCh] using congrArg (c :: ·) ih
      | cons q ps' => simpa [joinCh] using congrArg (c :: ·) ih

theorem not_mem_of_mem_splitCh (sep : Char) :
    ∀ (l : List Char) (p : List Char), p ∈ splitCh sep l → ¬ sep ∈ p
  | [], p, hp => by
    simp [splitCh] at hp; simp [hp]
  | c :: cs, p, hp => by
    simp only [splitCh] at hp
    split_ifs at hp with hc
    · rcases List.mem_cons.mp hp with h | h
      · simp [h]
      · exact not_mem_of_mem_splitCh sep cs p h
    · obtain ⟨q, qs, hqs⟩ := List.exists_cons_of_ne_nil (splitCh_ne_nil sep cs)
      rw [hqs] at hp
      rcases List.mem_cons.mp hp with h | h
      · subst h
        intro hc'
        rcases List.mem_cons.mp hc' with h' | h'
        · exact hc h'.symm
        · exact not_mem_of_mem_splitCh sep cs q (hqs ▸ List.mem_cons_self _ _) h'
      · exact not_mem_of_mem_splitCh sep cs p (hqs ▸ List.mem_cons.mpr (Or.inr h))

theorem append_sep_inj (sep : Char) :
    ∀ (a b u v : List Char), ¬ sep ∈ a → ¬ sep ∈ b →
      a ++ sep :: u = b ++ sep :: v → a = b ∧ u = v
  | [], [], u, v, _, _, h => by simpa using h
  | [], b' :: bs, u, v, _, hb, h => by
    simp only [List.nil_append, List.cons_append, List.cons.injEq] at h
    exact absurd (h.1 ▸ List.mem_cons_self _ _) hb
  | a' :: as, [], u, v, ha, _, h => by
    simp only [List.nil_append, List.cons_append, List.cons.injEq] at h
    exact absurd (h.1.symm ▸ List.mem_cons_self _ _) ha
  | a' :: as, b' :: bs, u, v, ha, hb, h => by
    simp only [List.cons_append, List.cons.injEq] at h
    obtain ⟨h1, h2⟩ := h
    have := append_sep_inj sep as bs u v
      (fun hm => ha (List.mem_cons.mpr (Or.inr hm)))
      (fun hm => hb (List.mem_cons.mpr (Or.inr hm))) h2
    exact ⟨by rw [h1, this.1], this.2⟩

theorem joinCh_inj (sep : Char) :
    ∀ (xs ys : List (List Char)), xs ≠ [] → ys ≠ [] →
      (∀ p ∈ xs, ¬ sep ∈ p) → (∀ p ∈ ys, ¬ sep ∈ p) →
      joinCh sep xs = joinCh sep ys → xs = ys
  | [], _, hx, _, _, _, _ => absurd rfl hx
  | _ :: _, [], _, hy, _, _, _ => absurd rfl hy
  | [x], [y], _, _, _, _, h => by simpa [joinCh] using h
  | [x], y :: y' :: ys, _, _, hx, hy, h => by
    simp only [joinCh] at h
    exact absurd (h ▸ List.mem_append.mpr (Or.inr (List.mem_cons_self _ _)))
      (hx x (List.mem_cons_self _ _))
  | x :: x' :: xs, [y], _, _, hx, hy, h => by
    simp only [joinCh] at h
    exact absurd (h ▸ List.mem_append.mpr (Or.inr (List.mem_cons_self _ _)))
      (hy y (List.mem_cons_self _ _))
  | x :: x' :: xs, y :: y' :: ys, _, _, hx, hy, h => by
    simp only [joinCh] at h
    obtain ⟨h1, h2⟩ := append_sep_inj sep x y _ _
      (hx x (List.mem_cons_self _ _)) (hy y (List.mem_cons_self _ _)) h
    have := joinCh_inj sep (x' :: xs) (y' :: ys) (by simp) (by simp)
      (fun p hp => hx p (List.mem_cons.mpr (Or.inr hp)))
      (fun p hp => hy p (List.mem_cons.mpr (Or.inr hp))) h2
    rw [h1, this]

theorem joinSlash_splitSlash (s : String) : joinSlash (splitSlash s) = s := by
  apply String.ext
  show joinCh '/' ((List.map (fun l => (⟨l⟩ : String)) (splitCh '/' s.data)).map String.data)
      = s.data
  rw [List.map_map]
  have : (String.data ∘ fun l => (⟨l⟩ : String)) = id := rfl
  rw [this, List.map_id]
  exact joinCh_splitCh '/' s.data

theorem splitSlash_ne_nil (s : String) : splitSlash s ≠ [] := by
  unfold splitSlash
  simpa using splitCh_ne_nil '/' s.data

theorem slashFree_of_mem_splitSlash {s x : String} (h : x ∈ splitSlash s) : slashFree x := by
  unfold splitSlash at h
  obtain ⟨l, hl, hx⟩ := List.mem_map.mp h
  subst hx
  exact not_mem_of_mem_splitCh '/' s.data l hl

theorem joinSlash_inj {xs ys : List String} (hx : xs ≠ []) (hy : ys ≠ [])
    (hfx : ∀ p ∈ xs, slashFree p) (hfy : ∀ p ∈ ys, slashFree p)
    (h : joinSlash xs = joinSlash ys) : xs = ys := by
  have hdata : joinCh '/' (xs.map String.data) = joinCh '/' (ys.map String.data) :=
    congrArg String.data h
  have := joinCh_inj '/' (xs.map String.data) (ys.map String.data)
    (by simpa using hx) (by simpa using hy)
    (by intro p hp
        obtain ⟨q, hq, rfl⟩ := List.mem_map.mp hp
        exact hfx q hq)
    (by intro p hp
        obtain ⟨q, hq, rfl⟩ := List.mem_map.mp hp
        exact hfy q hq) hdata
  exact List.map_injective_iff.mpr (fun _ _ hab => String.ext hab) this

/-! ### Sorting and replacement infrastructure -/

theorem distinctTN_symm {a b : TreeNode} (h : distinctTN a b) : distinctTN b a :=
  fun ⟨h1, h2⟩ => h ⟨h1.symm, h2.symm⟩

theorem sortSiblings_perm (ns : List TreeNode) : (sortSiblings ns).Perm ns :=
  List.perm_insertionSort siblingR ns

theorem sortSiblings_sorted (ns : List TreeNode) : (sortSiblings ns).Sorted siblingR :=
  List.sorted_insertionSort siblingR ns

theorem mem_sortSiblings {x : TreeNode} {ns : List TreeNode} :
    x ∈ sortSiblings ns ↔ x ∈ ns :=
  (sortSiblings_perm ns).mem_iff

theorem sortSiblings_pairwise {ns : List TreeNode}
    (h : ns.Pairwise distinctTN) : (sortSiblings ns).Pairwise distinctTN :=
  ((sortSiblings_perm ns).pairwise_iff (fun h => distinctTN_symm h)).mpr h

theorem pagesSorted_perm (m : List (String × List String)) (t : String) :
    (pagesSorted m t).Perm ((List.lookup t m).getD []) :=
  List.perm_insertionSort strLe _

theorem pagesSorted_sorted (m : List (String × List String)) (t : String) :
    (pagesSorted m t).Sorted strLe :=
  List.sorted_insertionSort strLe _

theorem replaceFind_spec (p : TreeNode → Bool) (f : TreeNode → TreeNode) :
    ∀ (F : List TreeNode) (n : TreeNode), F.find? p = some n →
      ∃ pre post, F = pre ++ n :: post ∧ (∀ x ∈ pre, p x = false) ∧
        replaceFind p f F = pre ++ f n :: post
  | [], n, h => by simp [List.find?] at h
  | c :: cs, n, h => by
    by_cases hc : p c = true
    · rw [List.find?_cons_of_pos _ hc] at h
      obtain rfl : c = n := by injection h
      exact ⟨[], cs, rfl, by simp, by simp [replaceFind, hc]⟩
    · rw [List.find?_cons_of_neg _ hc] at h
      obtain ⟨pre, post, h1, h2, h3⟩ := replaceFind_spec p f cs n h
      refine ⟨c :: pre, post, by simp [h1], ?_, ?_⟩
      · intro x hx
        rcases List.mem_cons.mp hx with rfl | hx
        · simpa using hc
        · exact h2 x hx
      · simp only [replaceFind, if_neg hc, h3, List.cons_append]

/-- Replacing one element of a pairwise list by an element with the same
title and name preserves pairwise distinguishability. -/
theorem pairwise_distinctTN_middle {pre post : List TreeNode} {x y : TreeNode}
    (hty : y.data.title = x.data.title) (hny : y.data.name = x.data.name)
    (h : (pre ++ x :: post).Pairwise distinctTN) :
    (pre ++ y :: post).Pairwise distinctTN := by
  rw [List.pairwise_append] at h ⊢
  obtain ⟨h1, h2, h3⟩ := h
  rw [List.pairwise_cons] at h2 ⊢
  refine ⟨h1, ⟨?_, h2.2⟩, ?_⟩
  · intro b hb ⟨e1, e2⟩
    exact h2.1 b hb ⟨hty ▸ e1, hny ▸ e2⟩
  · intro a ha b hb
    rcases List.mem_cons.mp hb with rfl | hb
    · intro ⟨e1, e2⟩
      exact h3 a ha x (List.mem_cons_self _ _) ⟨e1.trans hty, e2.trans hny⟩
    · exact h3 a ha b (List.mem_cons.mpr (Or.inr hb))

/-- Replacing one element of a sorted list by an element with the same
rank and title preserves sortedness. -/
theorem sorted_siblingR_middle {pre post : List TreeNode} {x y : TreeNode}
    (hr : rankOf y.data.nodeType = rankOf x.data.nodeType)
    (ht : y.data.title = x.data.title)
    (h : (pre ++ x :: post).Sorted siblingR) :
    (pre ++ y :: post).Sorted siblingR := by
  have key : ∀ z : TreeNode, (siblingR z x → siblingR z y) ∧ (siblingR x z → siblingR y z) := by
    intro z
    constructor
    · intro hz
      rcases hz with h' | ⟨h', h''⟩
      · exact Or.inl (by rw [hr]; exact h')
      · exact Or.inr ⟨by rw [hr]; exact h', by rw [ht]; exact h''⟩
    · intro hz
      rcases hz with h' | ⟨h', h''⟩
      · exact Or.inl (by rw [hr]; exact h')
      · exact Or.inr ⟨by rw [hr]; exact h', by rw [ht]; exact h''⟩
  unfold List.Sorted at h ⊢
  rw [List.pairwise_append] at h ⊢
  obtain ⟨h1, h2, h3⟩ := h
  rw [List.pairwise_cons] at h2 ⊢
  refine ⟨h1, ⟨?_, h2.2⟩, ?_⟩
  · intro b hb
    exact (key b).2 (h2.1 b hb)
  · intro a ha b hb
    rcases List.mem_cons.mp hb with rfl | hb
    · exact (key a).1 (h3 a ha x (List.mem_cons_self _ _))
    · exact h3 a ha b (List.mem_cons.mpr (Or.inr hb))

theorem mem_replaceFind {p : TreeNode → Bool} {f : TreeNode → TreeNode}
    {F : List TreeNode} {n x : TreeNode} (hf : F.find? p = some n)
    (hx : x ∈ replaceFind p f F) : x ∈ F ∨ x = f n := by
  obtain ⟨pre, post, h1, _, h3⟩ := replaceFind_spec p f F n hf
  rw [h3] at hx
  rcases List.mem_append.mp hx with h | h
  · exact Or.inl (h1 ▸ List.mem_append.mpr (Or.inl h))
  · rcases List.mem_cons.mp h with rfl | h
    · exact Or.inr rfl
    · exact Or.inl (h1 ▸ List.mem_append.mpr (Or.inr (List.mem_cons.mpr (Or.inr h))))

/-! ### Lemmas about the tag/page map -/

theorem lookup_cons_eq (k : String) (b : List String) (es : List (String × List String)) :
    List.lookup k ((k, b) :: es) = some b := by
  simp [List.lookup_cons]

theorem lookup_cons_ne {a k : String} (b : List String) (es : List (String × List String))
    (h : a ≠ k) : List.lookup a ((k, b) :: es) = List.lookup a es := by
  have hb : (a == k) = false := beq_eq_false_iff_ne.mpr h
  simp [List.lookup_cons, hb]

theorem lookup_addEntry (t p : String) :
    ∀ (m : List (String × List String)) (t' : String),
      List.lookup t' (addEntry m t p) =
        if t' = t then
          some (if p ∈ pagesOfM m t then pagesOfM m t else pagesOfM m t ++ [p])
        else List.lookup t' m
  | [], t' => by
    by_cases h : t' = t
    · subst h; simp [addEntry, pagesOfM, lookup_cons_eq]
    · simp [addEntry, pagesOfM, lookup_cons_ne _ _ h, h]
  | (k, ps) :: rest, t' => by
    by_cases hk : k = t
    · subst hk
      by_cases ht' : t' = k
      · subst ht'
        simp [addEntry, pagesOfM, lookup_cons_eq]
      · simp [addEntry, pagesOfM, lookup_cons_ne _ _ ht', ht']
    · have hne : ¬ k = t := hk
      have hadd : addEntry ((k, ps) :: rest) t p = (k, ps) :: addEntry rest t p := by
        simp [addEntry, hne]
      have hm : pagesOfM ((k, ps) :: rest) t = pagesOfM rest t := by
        simp [pagesOfM, lookup_cons_ne _ _ (fun h : t = k => hk h.symm)]
      by_cases ht' : t' = k
      · subst ht'
        have htt : t' ≠ t := hk
        rw [hadd, lookup_cons_eq, if_neg htt, lookup_cons_eq]
      · rw [hadd, lookup_cons_ne _ _ ht', lookup_addEntry t p rest t', hm,
          lookup_cons_ne _ _ ht']

theorem pagesOfM_addEntry (m : List (String × List String)) (t p t' : String) :
    pagesOfM (addEntry m t p) t' =
      if t' = t then (if p ∈ pagesOfM m t then pagesOfM m t else pagesOfM m t ++ [p])
      else pagesOfM m t' := by
  show (List.lookup t' (addEntry m t p)).getD [] = _
  rw [lookup_addEntry]
  by_cases h : t' = t
  · rw [if_pos h, if_pos h, Option.getD_some]
  · rw [if_neg h, if_neg h]; rfl

theorem mem_pagesOfM_addEntry {acc : List (String × List String)} {t₀ p₀ t p : String} :
    p ∈ pagesOfM (addEntry acc t₀ p₀) t ↔
      p ∈ pagesOfM acc t ∨ (t = t₀ ∧ p = p₀) := by
  rw [pagesOfM_addEntry]
  by_cases ht : t = t₀
  · subst ht
    rw [if_pos rfl]
    by_cases hp : p₀ ∈ pagesOfM acc t
    · rw [if_pos hp]
      constructor
      · exact fun h => Or.inl h
      · rintro (h | ⟨-, rfl⟩)
        · exact h
        · exact hp
    · rw [if_neg hp, List.mem_append, List.mem_singleton]
      constructor
      · rintro (h | rfl)
        · exact Or.inl h
        · exact Or.inr ⟨rfl, rfl⟩
      · rintro (h | ⟨-, rfl⟩)
        · exact Or.inl h
        · exact Or.inr rfl
  · rw [if_neg ht]
    constructor
    · exact fun h => Or.inl h
    · rintro (h | ⟨h', -⟩)
      · exact h
      · exact absurd h' ht

theorem pagesOfM_fold_mem (t p : String) :
    ∀ (es : List (Option TagIndexEntry)) (acc : List (String × List String)),
      p ∈ pagesOfM (es.foldl
          (fun m e =>
            match validEntry e with
            | some (t, p) => addEntry m t p
            | none => m) acc) t ↔
        p ∈ pagesOfM acc t ∨ (t, p) ∈ es.filterMap validEntry
  | [], acc => by simp
  | e :: es, acc => by
    rw [List.foldl_cons]
    cases hve : validEntry e with
    | none =>
      rw [List.filterMap_cons_none hve]
      simpa [hve] using pagesOfM_fold_mem t p es acc
    | some tp =>
      obtain ⟨t₀, p₀⟩ := tp
      rw [List.filterMap_cons_some hve]
      have ih := pagesOfM_fold_mem t p es (addEntry acc t₀ p₀)
      simp only [hve] at ih
      rw [ih, mem_pagesOfM_addEntry, List.mem_cons, Prod.mk.injEq]
      tauto

theorem pagesOfM_fold_nodup :
    ∀ (es : List (Option TagIndexEntry)) (acc : List (String × List String)),
      (∀ t, (pagesOfM acc t).Nodup) →
      ∀ t, (pagesOfM (es.foldl
          (fun m e =>
            match validEntry e with
            | some (t, p) => addEntry m t p
            | none => m) acc) t).Nodup
  | [], _, hacc, t => hacc t
  | e :: es, acc, hacc, t => by
    rw [List.foldl_cons]
    cases hve : validEntry e with
    | none =>
      simpa [hve] using pagesOfM_fold_nodup es acc hacc t
    | some tp =>
      obtain ⟨t₀, p₀⟩ := tp
      have hstep : ∀ t', (pagesOfM (addEntry acc t₀ p₀) t').Nodup := by
        intro t'
        rw [pagesOfM_addEntry]
        by_cases h : t' = t₀
        · rw [if_pos h]
          by_cases hp : p₀ ∈ pagesOfM acc t₀
          · rw [if_pos hp]; exact hacc t₀
          · rw [if_neg hp]
            rw [(List.perm_append_singleton p₀ (pagesOfM acc t₀)).nodup_iff,
              List.nodup_cons]
            exact ⟨hp, hacc t₀⟩
        · rw [if_neg h]; exact hacc t'
      have := pagesOfM_fold_nodup es (addEntry acc t₀ p₀) hstep t
      simpa [hve] using this

theorem pagesOfM_nil (t : String) : pagesOfM [] t = [] := rfl

theorem mem_pagesOfM {es : List (Option TagIndexEntry)} {t p : String} :
    p ∈ pagesOfM (tagPageMap es) t ↔ (t, p) ∈ es.filterMap validEntry := by
  unfold tagPageMap
  rw [pagesOfM_fold_mem]
  simp [pagesOfM_nil]

theorem nodup_pagesOfM (es : List (Option TagIndexEntry)) (t : String) :
    (pagesOfM (tagPageMap es) t).Nodup := by
  unfold tagPageMap
  exact pagesOfM_fold_nodup es [] (fun t' => by simp [pagesOfM_nil]) t

theorem tagCountD_eq_length (m : List (String × List String)) (t : String) :
    tagCountD m t = (pagesOfM m t).length := by
  unfold tagCountD pagesOfM
  cases h : List.lookup t m <;> simp [h]

theorem distinctPageCount_eq (es : List (Option TagIndexEntry)) (t : String) :
    distinctPageCount es t = (pagesOfM (tagPageMap es) t).length := by
  unfold distinctPageCount
  have hmem : ∀ p,
      p ∈ (((es.filterMap validEntry).filter (fun pr => pr.1 = t)).map Prod.snd).dedup ↔
        p ∈ pagesOfM (tagPageMap es) t := by
    intro p
    rw [List.mem_dedup, mem_pagesOfM, List.mem_map]
    constructor
    · rintro ⟨pr, hpr, rfl⟩
      obtain ⟨hpr1, hpr2⟩ := List.mem_filter.mp hpr
      have : pr = (t, pr.2) := by
        have := of_decide_eq_true hpr2
        exact Prod.ext this rfl
      exact this ▸ hpr1
    · intro h
      exact ⟨(t, p), List.mem_filter.mpr ⟨h, by simp⟩, rfl⟩
  have hperm :
      (((es.filterMap validEntry).filter (fun pr => pr.1 = t)).map Prod.snd).dedup.Perm
        (pagesOfM (tagPageMap es) t) :=
    (List.perm_ext_iff_of_nodup (List.nodup_dedup _) (nodup_pagesOfM es t)).mpr hmem
  exact hperm.length_eq

theorem lookup_mem {m : List (String × List String)} {t : String} {ps : List String} :
    List.lookup t m = some ps → ∃ k, (k, ps) ∈ m := by
  induction m with
  | nil => intro h; simp [List.lookup] at h
  | cons kv rest ih =>
    obtain ⟨k, ps'⟩ := kv
    by_cases h : t = k
    · subst h
      rw [lookup_cons_eq]
      intro h'
      exact ⟨t, by simp [(Option.some_inj.mp h').symm]⟩
    · rw [lookup_cons_ne _ _ h]
      intro h'
      obtain ⟨k', hk'⟩ := ih h'
      exact ⟨k', List.mem_cons.mpr (Or.inr hk')⟩

theorem pagesOfM_subset_pagesU {m : List (String × List String)} {t p : String}
    (h : p ∈ pagesOfM m t) : p ∈ pagesU m := by
  unfold pagesOfM at h
  cases hl : List.lookup t m with
  | none => rw [hl] at h; simp at h
  | some ps =>
    rw [hl] at h
    simp only [Option.getD_some] at h
    obtain ⟨k, hk⟩ := lookup_mem hl
    unfold pagesU
    exact List.mem_flatMap.mpr ⟨(k, ps), hk, h⟩

theorem tagPageMap_filter (es : List (Option TagIndexEntry)) :
    tagPageMap (es.filter (fun e => (validEntry e).isSome)) = tagPageMap es := by
  unfold tagPageMap
  suffices h : ∀ acc,
      (es.filter (fun e => (validEntry e).isSome)).foldl
          (fun m e =>
            match validEntry e with
            | some (t, p) => addEntry m t p
            | none => m) acc =
        es.foldl
          (fun m e =>
            match validEntry e with
            | some (t, p) => addEntry m t p
            | none => m) acc from h []
  induction es with
  | nil => intro acc; rfl
  | cons e es ih =>
    intro acc
    cases hve : validEntry e with
    | none =>
      have hf : (validEntry e).isSome = false := by rw [hve]; rfl
      rw [List.filter_cons_of_neg (by simp [hf]), List.foldl_cons]
      simpa [hve] using ih acc
    | some tp =>
      have hf : (validEntry e).isSome = true := by rw [hve]; rfl
      rw [List.filter_cons_of_pos (by simp [hf]), List.foldl_cons, List.foldl_cons]
      simpa [hve] using ih (addEntry acc tp.1 tp.2)

/-! ### Cumulative path lemmas -/

theorem mem_drop_one_inits {α : Type} :
    ∀ (l : List α) (p : List α), p ∈ l.inits.drop 1 ↔ (p ≠ [] ∧ p <+: l)
  | [], p => by
    simp only [List.inits, List.drop_succ_cons, List.drop_nil, List.not_mem_nil, false_iff,
      not_and]
    intro hne hp
    exact hne (List.prefix_nil.mp hp)
  | a :: as, p => by
    simp only [List.inits, List.drop_succ_cons, List.drop_zero, List.mem_map]
    constructor
    · rintro ⟨q, hq, rfl⟩
      exact ⟨by simp, (List.prefix_cons_inj a).mpr ((List.mem_inits _ _).mp hq)⟩
    · rintro ⟨hne, hp⟩
      cases p with
      | nil => exact absurd rfl hne
      | cons x xs =>
        obtain ⟨rfl, hxs⟩ := List.cons_prefix_cons.mp hp
        exact ⟨xs, (List.mem_inits _ _).mpr hxs, rfl⟩

theorem mem_cumPaths {t q : String} :
    q ∈ cumPaths t ↔ ∃ pre, pre ≠ [] ∧ pre <+: splitSlash t ∧ q = joinSlash pre := by
  unfold cumPaths
  rw [List.mem_map]
  constructor
  · rintro ⟨pre, hpre, rfl⟩
    obtain ⟨h1, h2⟩ := (mem_drop_one_inits _ _).mp hpre
    exact ⟨pre, h1, h2, rfl⟩
  · rintro ⟨pre, h1, h2, rfl⟩
    exact ⟨pre, (mem_drop_one_inits _ _).mpr ⟨h1, h2⟩, rfl⟩

theorem prefix_mem_allCumPaths {m : List (String × List String)} {t : String}
    {pre : List String} (ht : t ∈ tagsOf m) (hne : pre ≠ [])
    (hp : pre <+: splitSlash t) : joinSlash pre ∈ allCumPaths m := by
  unfold allCumPaths
  exact List.mem_flatMap.mpr ⟨t, ht, mem_cumPaths.mpr ⟨pre, hne, hp, rfl⟩⟩

theorem self_mem_allCumPaths {m : List (String × List String)} {t : String}
    (ht : t ∈ tagsOf m) : t ∈ allCumPaths m := by
  have := @prefix_mem_allCumPaths m t (splitSlash t) ht (splitSlash_ne_nil t)
    (List.prefix_refl _)
  rwa [joinSlash_splitSlash] at this

/-! ### Ordering invariant of the tag tree builder -/

theorem OrdN.childrenOrd {n : TreeNode} (h : OrdN n) : ∀ c ∈ n.nodes, OrdN c := by
  cases h with
  | mk h1 _ => exact h1

theorem OrdN.childOrd {n : TreeNode} (h : OrdN n) : ChildOrd n.nodes := by
  cases h with
  | mk _ h2 => exact h2

theorem OrdN_pageNode (p : String) : OrdN (pageNode p) :=
  OrdN.mk (by simp [pageNode]) (Or.inl (by simp [List.Sorted]))

theorem sorted_nameLe_map_pageNode {l : List String} (h : l.Sorted strLe) :
    ((l.map pageNode).Sorted nameLe) := by
  unfold List.Sorted at h ⊢
  rw [List.pairwise_map]
  exact h.imp (fun hab => hab)

theorem findPred_true {t cp : String} {c : TreeNode} (h : findPred t cp c = true) :
    c.data.title = t ∧ c.data.name = cp := of_decide_eq_true h

theorem upgradeLeaf_data {m : List (String × List String)} {tag cp t : String}
    {n : TreeNode} (hT : n.data.title = t) (hN : n.data.name = cp) :
    rankOf (upgradeLeaf m tag cp t n).data.nodeType = rankOf n.data.nodeType ∧
      (upgradeLeaf m tag cp t n).data.title = n.data.title ∧
      (upgradeLeaf m tag cp t n).data.name = n.data.name := by
  unfold upgradeLeaf
  split_ifs with h1 h2 h3
  · simp [h1, rankOf, hT, hN]
  · simp [h2, rankOf, hT, hN]
  · simp [h2, rankOf, hT, hN]
  · exact ⟨rfl, rfl, rfl⟩

theorem ord_upgradeLeaf {m : List (String × List String)} {tag cp t : String}
    {n : TreeNode} (h : OrdN n) : OrdN (upgradeLeaf m tag cp t n) := by
  unfold upgradeLeaf
  split_ifs with h1 h2 h3
  · refine OrdN.mk ?_ (Or.inl (sortSiblings_sorted _))
    intro c hc
    rcases List.mem_append.mp (mem_sortSiblings.mp hc) with hc | hc
    · exact h.childrenOrd c hc
    · obtain ⟨pg, _, rfl⟩ := List.mem_map.mp hc
      exact OrdN_pageNode pg
  · refine OrdN.mk ?_ (Or.inl (sortSiblings_sorted _))
    intro c hc
    rcases List.mem_append.mp (mem_sortSiblings.mp hc) with hc | hc
    · exact h.childrenOrd c hc
    · obtain ⟨pg, _, rfl⟩ := List.mem_map.mp hc
      exact OrdN_pageNode pg
  · refine OrdN.mk ?_ (Or.inl (sortSiblings_sorted _))
    intro c hc
    exact h.childrenOrd c (mem_sortSiblings.mp hc)
  · refine OrdN.mk ?_ (Or.inl (sortSiblings_sorted _))
    intro c hc
    exact h.childrenOrd c (mem_sortSiblings.mp hc)

theorem insertParts_ord (m : List (String × List String)) (tag : String) :
    ∀ (parts done : List String) (F : List TreeNode),
      (∀ c ∈ F, OrdN c) → F.Sorted siblingR →
      (∀ c ∈ insertParts m tag parts done F, OrdN c) ∧
        (insertParts m tag parts done F).Sorted siblingR
  | [], _, F, hF, hS => ⟨hF, hS⟩
  | [t], done, F, hF, hS => by
    simp only [insertParts]
    cases hfind : F.find? (findPred t (joinSlash (done ++ [t]))) with
    | none =>
      constructor
      · intro c hc
        rcases List.mem_append.mp (mem_sortSiblings.mp hc) with hc | hc
        · exact hF c hc
        · rw [List.mem_singleton] at hc
          subst hc
          refine OrdN.mk ?_ (Or.inr ⟨?_, sorted_nameLe_map_pageNode (pagesSorted_sorted m tag)⟩)
          · intro c hc
            obtain ⟨pg, _, rfl⟩ := List.mem_map.mp hc
            exact OrdN_pageNode pg
          · intro c hc
            obtain ⟨pg, _, rfl⟩ := List.mem_map.mp hc
            simp [pageNode]
      · exact sortSiblings_sorted _
    | some n =>
      obtain ⟨hT, hN⟩ := findPred_true (List.find?_some hfind)
      obtain ⟨pre, post, hFeq, _, hrep⟩ :=
        replaceFind_spec (findPred t (joinSlash (done ++ [t])))
          (upgradeLeaf m tag (joinSlash (done ++ [t])) t) F n hfind
      rw [hrep]
      constructor
      · intro c hc
        rcases List.mem_append.mp hc with hc | hc
        · exact hF c (hFeq ▸ List.mem_append.mpr (Or.inl hc))
        · rcases List.mem_cons.mp hc with rfl | hc
          · exact ord_upgradeLeaf (hF n (hFeq ▸ List.mem_append.mpr
              (Or.inr (List.mem_cons_self _ _))))
          · exact hF c (hFeq ▸ List.mem_append.mpr (Or.inr (List.mem_cons.mpr (Or.inr hc))))
      · obtain ⟨hr, ht', _⟩ := @upgradeLeaf_data m tag _ _ _ hT hN
        exact sorted_siblingR_middle hr ht'
          (show (pre ++ n :: post).Sorted siblingR from hFeq ▸ hS)
  | t :: t' :: rest, done, F, hF, hS => by
    simp only [insertParts]
    cases hfind : F.find? (findPred t (joinSlash (done ++ [t]))) with
    | none =>
      have hrec := insertParts_ord m tag (t' :: rest) (done ++ [t]) []
        (by simp) (by simp [List.Sorted])
      constructor
      · intro c hc
        rcases List.mem_append.mp (mem_sortSiblings.mp hc) with hc | hc
        · exact hF c hc
        · rw [List.mem_singleton] at hc
          subst hc
          exact OrdN.mk hrec.1 (Or.inl hrec.2)
      · exact sortSiblings_sorted _
    | some n =>
      obtain ⟨hT, hN⟩ := findPred_true (List.find?_some hfind)
      obtain ⟨pre, post, hFeq, _, hrep⟩ :=
        replaceFind_spec (findPred t (joinSlash (done ++ [t])))
          (fun n => .mk n.data
            (insertParts m tag (t' :: rest) (done ++ [t]) (sortSiblings n.nodes))) F n hfind
      rw [hrep]
      have hnode : OrdN n :=
        hF n (hFeq ▸ List.mem_append.mpr (Or.inr (List.mem_cons_self _ _)))
      have hrec := insertParts_ord m tag (t' :: rest) (done ++ [t]) (sortSiblings n.nodes)
        (fun c hc => hnode.childrenOrd c (mem_sortSiblings.mp hc)) (sortSiblings_sorted _)
      constructor
      · intro c hc
        rcases List.mem_append.mp hc with hc | hc
        · exact hF c (hFeq ▸ List.mem_append.mpr (Or.inl hc))
        · rcases List.mem_cons.mp hc with rfl | hc
          · exact OrdN.mk hrec.1 (Or.inl hrec.2)
          · exact hF c (hFeq ▸ List.mem_append.mpr (Or.inr (List.mem_cons.mpr (Or.inr hc))))
      · exact sorted_siblingR_middle (x := n) rfl rfl
          (show (pre ++ n :: post).Sorted siblingR from hFeq ▸ hS)

/-! ### Page-count invariant of the tag tree builder -/

theorem TCN.childrenTC {m : List (String × List String)} {n : TreeNode} (h : TCN m n) :
    ∀ c ∈ n.nodes, TCN m c := by
  cases h with
  | mk h1 _ => exact h1

theorem TCN.count {m : List (String × List String)} {n : TreeNode} (h : TCN m n) :
    n.data.nodeType = .tag → n.data.pageCount = tagCountD m n.data.name := by
  cases h with
  | mk _ h2 => exact h2

theorem TCN_pageNode (m : List (String × List String)) (p : String) :
    TCN m (pageNode p) :=
  TCN.mk (by simp [pageNode]) (by simp [pageNode])

theorem tcn_upgradeLeaf {m : List (String × List String)} {tag cp t : String}
    {n : TreeNode} (hcp : cp = tag) (hN : n.data.name = cp) (h : TCN m n) :
    TCN m (upgradeLeaf m tag cp t n) := by
  unfold upgradeLeaf
  split_ifs with h1 h2 h3
  · refine TCN.mk ?_ (by simp [hcp])
    intro c hc
    rcases List.mem_append.mp (mem_sortSiblings.mp hc) with hc | hc
    · exact h.childrenTC c hc
    · obtain ⟨pg, _, rfl⟩ := List.mem_map.mp hc
      exact TCN_pageNode m pg
  · refine TCN.mk ?_ (by intro _; simp [hN, hcp])
    intro c hc
    rcases List.mem_append.mp (mem_sortSiblings.mp hc) with hc | hc
    · exact h.childrenTC c hc
    · obtain ⟨pg, _, rfl⟩ := List.mem_map.mp hc
      exact TCN_pageNode m pg
  · refine TCN.mk ?_ (by intro _; simp [hN, hcp])
    intro c hc
    exact h.childrenTC c (mem_sortSiblings.mp hc)
  · refine TCN.mk ?_ (by intro hty; exact h.count hty)
    intro c hc
    exact h.childrenTC c (mem_sortSiblings.mp hc)

theorem insertParts_tcn (m : List (String × List String)) (tag : String) :
    ∀ (parts done : List String) (F : List TreeNode),
      done ++ parts = splitSlash tag →
      (∀ c ∈ F, TCN m c) →
      ∀ c ∈ insertParts m tag parts done F, TCN m c
  | [], _, F, _, hF => hF
  | [t], done, F, hsplit, hF => by
    have hcp : joinSlash (done ++ [t]) = tag := by
      rw [hsplit, joinSlash_splitSlash]
    simp only [insertParts]
    cases hfind : F.find? (findPred t (joinSlash (done ++ [t]))) with
    | none =>
      intro c hc
      rcases List.mem_append.mp (mem_sortSiblings.mp hc) with hc | hc
      · exact hF c hc
      · rw [List.mem_singleton] at hc
        subst hc
        refine TCN.mk ?_ (by simp [hcp])
        intro c hc
        obtain ⟨pg, _, rfl⟩ := List.mem_map.mp hc
        exact TCN_pageNode m pg
    | some n =>
      obtain ⟨hT, hN⟩ := findPred_true (List.find?_some hfind)
      obtain ⟨pre, post, hFeq, _, hrep⟩ :=
        replaceFind_spec (findPred t (joinSlash (done ++ [t])))
          (upgradeLeaf m tag (joinSlash (done ++ [t])) t) F n hfind
      rw [hrep]
      intro c hc
      rcases List.mem_append.mp hc with hc | hc
      · exact hF c (hFeq ▸ List.mem_append.mpr (Or.inl hc))
      · rcases List.mem_cons.mp hc with rfl | hc
        · exact tcn_upgradeLeaf hcp hN
            (hF n (hFeq ▸ List.mem_append.mpr (Or.inr (List.mem_cons_self _ _))))
        · exact hF c (hFeq ▸ List.mem_append.mpr (Or.inr (List.mem_cons.mpr (Or.inr hc))))
  | t :: t' :: rest, done, F, hsplit, hF => by
    have hsplit' : (done ++ [t]) ++ (t' :: rest) = splitSlash tag := by
      rw [← hsplit]; simp
    simp only [insertParts]
    cases hfind : F.find? (findPred t (joinSlash (done ++ [t]))) with
    | none =>
      intro c hc
      rcases List.mem_append.mp (mem_sortSiblings.mp hc) with hc | hc
      · exact hF c hc
      · rw [List.mem_singleton] at hc
        subst hc
        refine TCN.mk ?_ (by simp)
        exact insertParts_tcn m tag (t' :: rest) (done ++ [t]) [] hsplit' (by simp)
    | some n =>
      obtain ⟨pre, post, hFeq, _, hrep⟩ :=
        replaceFind_spec (findPred t (joinSlash (done ++ [t])))
          (fun n => .mk n.data
            (insertParts m tag (t' :: rest) (done ++ [t]) (sortSiblings n.nodes))) F n hfind
      rw [hrep]
      have hnode : TCN m n :=
        hF n (hFeq ▸ List.mem_append.mpr (Or.inr (List.mem_cons_self _ _)))
      intro c hc
      rcases List.mem_append.mp hc with hc | hc
      · exact hF c (hFeq ▸ List.mem_append.mpr (Or.inl hc))
      · rcases List.mem_cons.mp hc with rfl | hc
        · refine TCN.mk ?_ (fun hty => hnode.count hty)
          exact insertParts_tcn m tag (t' :: rest) (done ++ [t]) (sortSiblings n.nodes)
            hsplit' (fun c hc => hnode.childrenTC c (mem_sortSiblings.mp hc))
        · exact hF c (hFeq ▸ List.mem_append.mpr (Or.inr (List.mem_cons.mpr (Or.inr hc))))

theorem tcn_of_inf {m : List (String × List String)} {F : List TreeNode} {n : TreeNode}
    (hinf : InF n F) (hF : ∀ c ∈ F, TCN m c) : TCN m n := by
  induction hinf with
  | here hmem => exact hF _ hmem
  | deeper hmem hsub ih => exact ih ((hF _ hmem).childrenTC)

/-! ### Structural well-formedness: helpers -/

theorem mem_pagesSorted {m : List (String × List String)} {t pg : String} :
    pg ∈ pagesSorted m t ↔ pg ∈ pagesOfM m t :=
  (List.perm_insertionSort strLe _).mem_iff

theorem nodup_pagesSorted {m : List (String × List String)}
    (hnd : ∀ t', (pagesOfM m t').Nodup) (t : String) : (pagesSorted m t).Nodup :=
  ((List.perm_insertionSort strLe _).nodup_iff).mpr (hnd t)

theorem pagesSorted_subset_pagesU {m : List (String × List String)} {t pg : String}
    (h : pg ∈ pagesSorted m t) : pg ∈ pagesU m :=
  pagesOfM_subset_pagesU (mem_pagesSorted.mp h)

theorem pairwise_distinctTN_map_pageNode {l : List String} (h : l.Nodup) :
    (l.map pageNode).Pairwise distinctTN := by
  rw [List.pairwise_map]
  refine h.imp ?_
  intro a b hab ⟨_, hn⟩
  exact hab (by simpa [pageNode] using hn)

theorem findPred_none {t cp : String} {F : List TreeNode}
    (h : F.find? (findPred t cp) = none) :
    ∀ x ∈ F, ¬ (x.data.title = t ∧ x.data.name = cp) := by
  intro x hx hP
  exact List.find?_eq_none.mp h x hx (decide_eq_true hP)

theorem unique_by_pairwise {F : List TreeNode} (hpw : F.Pairwise distinctTN)
    {x y : TreeNode} (hx : x ∈ F) (hy : y ∈ F)
    (ht : x.data.title = y.data.title) (hn : x.data.name = y.data.name) : x = y := by
  by_contra hne
  exact (hpw.forall (fun _ _ h => distinctTN_symm h) hx hy hne) ⟨ht, hn⟩

theorem Reaches_mono {L L' : List TreeNode} (hsub : ∀ x ∈ L, x ∈ L')
    {done parts : List String} (h : Reaches L done parts) : Reaches L' done parts := by
  cases parts with
  | nil => trivial
  | cons s rest =>
    cases rest with
    | nil =>
      obtain ⟨n, hn, hprops⟩ := h
      exact ⟨n, hsub n hn, hprops⟩
    | cons s' rest' =>
      obtain ⟨n, hn, hprops⟩ := h
      exact ⟨n, hsub n hn, hprops⟩

theorem WFN.not_header {m : List (String × List String)} {C : List String} {n : TreeNode}
    (h : WFN m C n) : n.data.nodeType ≠ .header := by
  cases h <;> simp

theorem WFN.page_name {m : List (String × List String)} {C : List String} {n : TreeNode}
    (h : WFN m C n) (hp : n.data.nodeType = .page) : n.data.name ∈ pagesU m := by
  cases h with
  | page hmem => exact hmem
  | folder => simp at hp
  | tag => simp at hp

theorem WFN.name_mem_allCumPaths {m : List (String × List String)} {C : List String}
    {n : TreeNode} (h : WFN m C n) (hnp : n.data.nodeType ≠ .page) :
    n.data.name ∈ allCumPaths m := by
  cases h with
  | page hmem => simp at hnp
  | folder _ hcm _ _ => exact hcm
  | tag _ hcm _ _ => exact hcm

theorem wfn_newTagNode (m : List (String × List String)) (tag : String)
    (hnd : ∀ t', (pagesOfM m t').Nodup) (done : List String) (t : String)
    (hslt : slashFree t) (hcptag : joinSlash (done ++ [t]) = tag)
    (htag : tag ∈ tagsOf m) :
    WFN m done (.mk ⟨joinSlash (done ++ [t]), t, .tag, tagCountD m tag, 0, 0⟩
      ((pagesSorted m tag).map pageNode)) := by
  have hc : tagCountD m tag = tagCountD m (joinSlash (done ++ [t])) := by rw [hcptag]
  rw [hc]
  refine WFN.tag hslt (by rw [hcptag]; exact self_mem_allCumPaths htag) ?_ ?_
  · intro c hc
    obtain ⟨pg, hpg, rfl⟩ := List.mem_map.mp hc
    exact WFN.page (pagesSorted_subset_pagesU hpg)
  · exact pairwise_distinctTN_map_pageNode (nodup_pagesSorted hnd tag)

theorem wfn_append_pages (m : List (String × List String)) (tag : String)
    (hnd : ∀ t', (pagesOfM m t').Nodup) {C : List String} {ns : List TreeNode}
    (hch : ∀ c ∈ ns, WFN m C c) (hpw : ns.Pairwise distinctTN) :
    (∀ c ∈ ns ++ (((pagesSorted m tag).filter
        (fun pg => ¬ pg ∈ ns.map (fun c => c.data.name))).map pageNode), WFN m C c) ∧
      (ns ++ (((pagesSorted m tag).filter
        (fun pg => ¬ pg ∈ ns.map (fun c => c.data.name))).map pageNode)).Pairwise
        distinctTN := by
  constructor
  · intro c hc
    rcases List.mem_append.mp hc with hc | hc
    · exact hch c hc
    · obtain ⟨pg, hpg, rfl⟩ := List.mem_map.mp hc
      exact WFN.page (pagesSorted_subset_pagesU (List.mem_of_mem_filter hpg))
  · rw [List.pairwise_append]
    refine ⟨hpw, ?_, ?_⟩
    · exact pairwise_distinctTN_map_pageNode
        (List.Nodup.sublist (List.filter_sublist _) (nodup_pagesSorted hnd tag))
    · intro a ha b hb ⟨_, hn⟩
      obtain ⟨pg, hpg, rfl⟩ := List.mem_map.mp hb
      have hnot := of_decide_eq_true (List.mem_filter.mp hpg).2
      exact hnot (List.mem_map.mpr ⟨a, ha, by simpa [pageNode] using hn⟩)

theorem wfn_append_pages_nopage (m : List (String × List String)) (tag : String)
    (hd : ∀ q ∈ allCumPaths m, ¬ q ∈ pagesU m)
    (hnd : ∀ t', (pagesOfM m t').Nodup) {C : List String} {ns : List TreeNode}
    (hch : ∀ c ∈ ns, WFN m C c) (hpw : ns.Pairwise distinctTN)
    (hnopage : ∀ c ∈ ns, c.data.nodeType ≠ .page) :
    (∀ c ∈ ns ++ (pagesSorted m tag).map pageNode, WFN m C c) ∧
      (ns ++ (pagesSorted m tag).map pageNode).Pairwise distinctTN := by
  constructor
  · intro c hc
    rcases List.mem_append.mp hc with hc | hc
    · exact hch c hc
    · obtain ⟨pg, hpg, rfl⟩ := List.mem_map.mp hc
      exact WFN.page (pagesSorted_subset_pagesU hpg)
  · rw [List.pairwise_append]
    refine ⟨hpw, pairwise_distinctTN_map_pageNode (nodup_pagesSorted hnd tag), ?_⟩
    intro a ha b hb ⟨_, hn⟩
    obtain ⟨pg, hpg, rfl⟩ := List.mem_map.mp hb
    have hacm : a.data.name ∈ allCumPaths m :=
      (hch a ha).name_mem_allCumPaths (hnopage a ha)
    have : a.data.name ∈ pagesU m := by
      have hpg' : a.data.name = pg := by simpa [pageNode] using hn
      exact hpg' ▸ pagesSorted_subset_pagesU hpg
    exact hd a.data.name hacm this

theorem WFN.folder_inv {m : List (String × List String)} {C : List String} {n : TreeNode}
    (h : WFN m C n) (hf : n.data.nodeType = .folder) :
    ∃ t' ns, n = .mk ⟨joinSlash (C ++ [t']), t', .folder, 0, 0, 0⟩ ns ∧
      slashFree t' ∧ joinSlash (C ++ [t']) ∈ allCumPaths m ∧
      (∀ c ∈ ns, WFN m (C ++ [t']) c) ∧ ns.Pairwise distinctTN := by
  cases h with
  | page hp => simp at hf
  | folder h1 h2 h3 h4 => exact ⟨_, _, rfl, h1, h2, h3, h4⟩
  | tag h1 h2 h3 h4 => simp at hf

theorem WFN.tag_inv {m : List (String × List String)} {C : List String} {n : TreeNode}
    (h : WFN m C n) (hf : n.data.nodeType = .tag) :
    ∃ t' ns, n = .mk ⟨joinSlash (C ++ [t']), t', .tag,
        tagCountD m (joinSlash (C ++ [t'])), 0, 0⟩ ns ∧
      slashFree t' ∧ joinSlash (C ++ [t']) ∈ allCumPaths m ∧
      (∀ c ∈ ns, WFN m (C ++ [t']) c) ∧ ns.Pairwise distinctTN := by
  cases h with
  | page hp => simp at hf
  | folder h1 h2 h3 h4 => simp at hf
  | tag h1 h2 h3 h4 => exact ⟨_, _, rfl, h1, h2, h3, h4⟩

theorem WFN.type_cases {m : List (String × List String)} {C : List String} {n : TreeNode}
    (h : WFN m C n) :
    n.data.nodeType = .page ∨ n.data.nodeType = .folder ∨ n.data.nodeType = .tag := by
  cases h with
  | page hp => exact Or.inl rfl
  | folder h1 h2 h3 h4 => exact Or.inr (Or.inl rfl)
  | tag h1 h2 h3 h4 => exact Or.inr (Or.inr rfl)

theorem wfn_upgradeLeaf (m : List (String × List String)) (tag : String)
    (hd : ∀ q ∈ allCumPaths m, ¬ q ∈ pagesU m)
    (hnd : ∀ t', (pagesOfM m t').Nodup) (htag : tag ∈ tagsOf m)
    {done : List String} {t : String} {n : TreeNode}
    (hcptag : joinSlash (done ++ [t]) = tag)
    (hT : n.data.title = t) (hN : n.data.name = joinSlash (done ++ [t]))
    (hwf : WFN m done n) :
    WFN m done (upgradeLeaf m tag (joinSlash (done ++ [t])) t n) := by
  have hcnt : tagCountD m tag = tagCountD m (joinSlash (done ++ [t])) := by rw [hcptag]
  have hmemcum : joinSlash (done ++ [t]) ∈ allCumPaths m := by
    rw [hcptag]; exact self_mem_allCumPaths htag
  rcases hwf.type_cases with hty | hty | hty
  · exact absurd (hN ▸ hwf.page_name hty) (hd _ hmemcum)
  · obtain ⟨t', ns, rfl, hslt', hcm, hch, hpw⟩ := hwf.folder_inv hty
    obtain rfl : t = t' := by simpa using hT.symm
    have hred : upgradeLeaf m tag (joinSlash (done ++ [t])) t
        (.mk ⟨joinSlash (done ++ [t]), t, .folder, 0, 0, 0⟩ ns) =
        .mk ⟨joinSlash (done ++ [t]), t, .tag, tagCountD m tag, 0, 0⟩
          (sortSiblings (ns ++ (((pagesSorted m tag).filter
            (fun pg => ¬ pg ∈ ns.map (fun c => c.data.name))).map pageNode))) := by
      simp [upgradeLeaf]
    rw [hred, hcnt]
    obtain ⟨hall, hpw'⟩ := wfn_append_pages m tag hnd hch hpw
    exact WFN.tag hslt' hmemcum
      (fun c hc => hall c (mem_sortSiblings.mp hc))
      (sortSiblings_pairwise hpw')
  · obtain ⟨t', ns, rfl, hslt', hcm, hch, hpw⟩ := hwf.tag_inv hty
    obtain rfl : t = t' := by simpa using hT.symm
    by_cases hemp : (ns.filter (fun c => c.data.nodeType = .page)).isEmpty
    · have hnopage : ∀ c ∈ ns, c.data.nodeType ≠ .page := by
        intro c hc hcp
        have hmemf : c ∈ ns.filter (fun c => c.data.nodeType = .page) :=
          List.mem_filter.mpr ⟨hc, decide_eq_true hcp⟩
        rw [List.isEmpty_iff.mp hemp] at hmemf
        exact List.not_mem_nil c hmemf
      have hred : upgradeLeaf m tag (joinSlash (done ++ [t])) t
          (.mk ⟨joinSlash (done ++ [t]), t, .tag,
            tagCountD m (joinSlash (done ++ [t])), 0, 0⟩ ns) =
          .mk ⟨joinSlash (done ++ [t]), t, .tag, tagCountD m tag, 0, 0⟩
            (sortSiblings (ns ++ (pagesSorted m tag).map pageNode)) := by
        simp [upgradeLeaf, hemp]
      rw [hred, hcnt]
      obtain ⟨hall, hpw'⟩ := wfn_append_pages_nopage m tag hd hnd hch hpw hnopage
      exact WFN.tag hslt' hmemcum
        (fun c hc => hall c (mem_sortSiblings.mp hc))
        (sortSiblings_pairwise hpw')
    · have hred : upgradeLeaf m tag (joinSlash (done ++ [t])) t
          (.mk ⟨joinSlash (done ++ [t]), t, .tag,
            tagCountD m (joinSlash (done ++ [t])), 0, 0⟩ ns) =
          .mk ⟨joinSlash (done ++ [t]), t, .tag, tagCountD m tag, 0, 0⟩
            (sortSiblings ns) := by
        simp [upgradeLeaf, hemp]
      rw [hred, hcnt]
      exact WFN.tag hslt' hmemcum
        (fun c hc => hch c (mem_sortSiblings.mp hc))
        (sortSiblings_pairwise hpw)

theorem upgradeLeaf_type_tag {m : List (String × List String)} {tag cp t : String}
    {n : TreeNode} (h : n.data.nodeType = .folder ∨ n.data.nodeType = .tag) :
    (upgradeLeaf m tag cp t n).data.nodeType = .tag := by
  unfold upgradeLeaf
  split_ifs with h1 h2 h3
  · rfl
  · simp [h2]
  · simp [h2]
  · rcases h with h | h
    · exact absurd h h1
    · exact absurd h h2

theorem upgradeLeaf_children_superset {m : List (String × List String)}
    {tag cp t : String} {n : TreeNode} :
    ∀ x ∈ n.nodes, x ∈ (upgradeLeaf m tag cp t n).nodes := by
  intro x hx
  unfold upgradeLeaf
  split_ifs with h1 h2 h3
  · simpa using mem_sortSiblings.mpr (List.mem_append.mpr (Or.inl hx))
  · simpa using mem_sortSiblings.mpr (List.mem_append.mpr (Or.inl hx))
  · simpa using mem_sortSiblings.mpr hx
  · simpa using mem_sortSiblings.mpr hx

theorem WFN.ft_children {m : List (String × List String)} {C : List String} {n : TreeNode}
    (h : WFN m C n) (hnp : n.data.nodeType ≠ .page) :
    (∀ c ∈ n.nodes, WFN m (C ++ [n.data.title]) c) ∧ n.nodes.Pairwise distinctTN := by
  cases h with
  | page hp => exact absurd rfl hnp
  | folder h1 h2 h3 h4 => exact ⟨h3, h4⟩
  | tag h1 h2 h3 h4 => exact ⟨h3, h4⟩

theorem WFN.rebuild {m : List (String × List String)} {C : List String} {n : TreeNode}
    (h : WFN m C n) (hnp : n.data.nodeType ≠ .page)
    {ns' : List TreeNode} (hch : ∀ c ∈ ns', WFN m (C ++ [n.data.title]) c)
    (hpw : ns'.Pairwise distinctTN) : WFN m C (.mk n.data ns') := by
  cases h with
  | page hp => exact absurd rfl hnp
  | folder h1 h2 h3 h4 => exact WFN.folder h1 h2 hch hpw
  | tag h1 h2 h3 h4 => exact WFN.tag h1 h2 hch hpw

theorem insertParts_wfn (m : List (String × List String)) (tag : String)
    (hd : ∀ q ∈ allCumPaths m, ¬ q ∈ pagesU m)
    (hnd : ∀ t', (pagesOfM m t').Nodup)
    (htag : tag ∈ tagsOf m) :
    ∀ (parts done : List String) (F : List TreeNode),
      done ++ parts = splitSlash tag →
      (∀ c ∈ F, WFN m done c) → F.Pairwise distinctTN →
      (∀ c ∈ insertParts m tag parts done F, WFN m done c) ∧
        (insertParts m tag parts done F).Pairwise distinctTN ∧
        (parts ≠ [] → Reaches (insertParts m tag parts done F) done parts) ∧
        (∀ parts', Reaches F done parts' →
          Reaches (insertParts m tag parts done F) done parts')
  | [], done, F, hsplit, hF, hpw =>
    ⟨hF, hpw, fun h => absurd rfl h, fun _ h => h⟩
  | [t], done, F, hsplit, hF, hpw => by
    have hslt : slashFree t :=
      slashFree_of_mem_splitSlash (s := tag) (hsplit ▸ (by simp : t ∈ done ++ [t]))
    have hcptag : joinSlash (done ++ [t]) = tag := by rw [hsplit, joinSlash_splitSlash]
    have hcpmem : joinSlash (done ++ [t]) ∈ allCumPaths m := by
      rw [hcptag]; exact self_mem_allCumPaths htag
    simp only [insertParts]
    cases hfind : F.find? (findPred t (joinSlash (done ++ [t]))) with
    | none =>
      have hNwfn := wfn_newTagNode m tag hnd done t hslt hcptag htag
      have hsub : ∀ x ∈ F, x ∈ sortSiblings (F ++
          [TreeNode.mk ⟨joinSlash (done ++ [t]), t, .tag, tagCountD m tag, 0, 0⟩
            ((pagesSorted m tag).map pageNode)]) :=
        fun x hx => mem_sortSiblings.mpr (List.mem_append.mpr (Or.inl hx))
      have hNmem : TreeNode.mk ⟨joinSlash (done ++ [t]), t, .tag, tagCountD m tag, 0, 0⟩
          ((pagesSorted m tag).map pageNode) ∈ sortSiblings (F ++
          [TreeNode.mk ⟨joinSlash (done ++ [t]), t, .tag, tagCountD m tag, 0, 0⟩
            ((pagesSorted m tag).map pageNode)]) :=
        mem_sortSiblings.mpr (List.mem_append.mpr (Or.inr (List.mem_singleton.mpr rfl)))
      refine ⟨?_, ?_, fun _ => ⟨_, hNmem, rfl, rfl, rfl⟩, fun parts' hre => Reaches_mono hsub hre⟩
      · intro c hc
        rcases List.mem_append.mp (mem_sortSiblings.mp hc) with hc | hc
        · exact hF c hc
        · rw [List.mem_singleton] at hc
          subst hc
          exact hNwfn
      · refine sortSiblings_pairwise (List.pairwise_append.mpr ⟨hpw, by simp, ?_⟩)
        intro a ha b hb
        rw [List.mem_singleton] at hb
        subst hb
        intro ⟨e1, e2⟩
        exact findPred_none hfind a ha ⟨e1, e2⟩
    | some n =>
      obtain ⟨hT, hN⟩ := findPred_true (List.find?_some hfind)
      obtain ⟨pre, post, hFeq, hprefalse, hrep⟩ :=
        replaceFind_spec (findPred t (joinSlash (done ++ [t])))
          (upgradeLeaf m tag (joinSlash (done ++ [t])) t) F n hfind
      rw [hrep]
      have hnmem : n ∈ F := hFeq ▸ List.mem_append.mpr (Or.inr (List.mem_cons_self _ _))
      have hnwf : WFN m done n := hF n hnmem
      have hnotpage : n.data.nodeType ≠ .page := by
        intro hp
        exact hd _ hcpmem (hN ▸ hnwf.page_name hp)
      have hftag : n.data.nodeType = .folder ∨ n.data.nodeType = .tag := by
        rcases hnwf.type_cases with h | h | h
        · exact absurd h hnotpage
        · exact Or.inl h
        · exact Or.inr h
      have hupg := wfn_upgradeLeaf m tag hd hnd htag hcptag hT hN hnwf
      have hdata := @upgradeLeaf_data m tag _ _ _ hT hN
      have hmidmem : upgradeLeaf m tag (joinSlash (done ++ [t])) t n ∈
          pre ++ upgradeLeaf m tag (joinSlash (done ++ [t])) t n :: post :=
        List.mem_append.mpr (Or.inr (List.mem_cons_self _ _))
      refine ⟨?_, ?_, ?_, ?_⟩
      · intro c hc
        rcases List.mem_append.mp hc with hc | hc
        · exact hF c (hFeq ▸ List.mem_append.mpr (Or.inl hc))
        · rcases List.mem_cons.mp hc with rfl | hc
          · exact hupg
          · exact hF c (hFeq ▸ List.mem_append.mpr (Or.inr (List.mem_cons.mpr (Or.inr hc))))
      · exact pairwise_distinctTN_middle hdata.2.1 hdata.2.2
          (show (pre ++ n :: post).Pairwise distinctTN from hFeq ▸ hpw)
      · intro _
        exact ⟨_, hmidmem, hdata.2.1.trans hT, hdata.2.2.trans hN,
          upgradeLeaf_type_tag hftag⟩
      · intro parts' hre
        cases parts' with
        | nil => trivial
        | cons s rest' =>
          cases rest' with
          | nil =>
            obtain ⟨n', hn', hT', hN', hty'⟩ := hre
            by_cases hsame : n'.data.title = t ∧ n'.data.name = joinSlash (done ++ [t])
            · have heq : n' = n := unique_by_pairwise hpw hn' hnmem
                (hsame.1.trans hT.symm) (hsame.2.trans hN.symm)
              subst heq
              exact ⟨_, hmidmem, hdata.2.1.trans hT', hdata.2.2.trans hN',
                upgradeLeaf_type_tag (Or.inr hty')⟩
            · have hne : n' ≠ n := fun he => hsame ⟨he ▸ hT, he ▸ hN⟩
              have : n' ∈ pre ++ n :: post := hFeq ▸ hn'
              rcases List.mem_append.mp this with h | h
              · exact ⟨n', List.mem_append.mpr (Or.inl h), hT', hN', hty'⟩
              · rcases List.mem_cons.mp h with h | h
                · exact absurd h hne
                · exact ⟨n', List.mem_append.mpr (Or.inr (List.mem_cons.mpr (Or.inr h))),
                    hT', hN', hty'⟩
          | cons s' rest'' =>
            obtain ⟨n', hn', hT', hN', htyOr, htail⟩ := hre
            by_cases hsame : n'.data.title = t ∧ n'.data.name = joinSlash (done ++ [t])
            · have heq : n' = n := unique_by_pairwise hpw hn' hnmem
                (hsame.1.trans hT.symm) (hsame.2.trans hN.symm)
              subst heq
              refine ⟨_, hmidmem, hdata.2.1.trans hT', hdata.2.2.trans hN',
                Or.inr (upgradeLeaf_type_tag htyOr), ?_⟩
              exact Reaches_mono upgradeLeaf_children_superset htail
            · have hne : n' ≠ n := fun he => hsame ⟨he ▸ hT, he ▸ hN⟩
              have : n' ∈ pre ++ n :: post := hFeq ▸ hn'
              rcases List.mem_append.mp this with h | h
              · exact ⟨n', List.mem_append.mpr (Or.inl h), hT', hN', htyOr, htail⟩
              · rcases List.mem_cons.mp h with h | h
                · exact absurd h hne
                · exact ⟨n', List.mem_append.mpr (Or.inr (List.mem_cons.mpr (Or.inr h))),
                    hT', hN', htyOr, htail⟩
  | t :: t' :: rest, done, F, hsplit, hF, hpw => by
    have hslt : slashFree t :=
      slashFree_of_mem_splitSlash (s := tag)
        (hsplit ▸ (by simp : t ∈ done ++ t :: t' :: rest))
    have hsplit' : (done ++ [t]) ++ (t' :: rest) = splitSlash tag := by
      rw [← hsplit]; simp
    have hcpmem : joinSlash (done ++ [t]) ∈ allCumPaths m :=
      prefix_mem_allCumPaths htag (by simp) ⟨t' :: rest, hsplit'⟩
    simp only [insertParts]
    cases hfind : F.find? (findPred t (joinSlash (done ++ [t]))) with
    | none =>
      obtain ⟨hIW, hIP, hIR, _⟩ :=
        insertParts_wfn m tag hd hnd htag (t' :: rest) (done ++ [t]) [] hsplit'
          (by simp) (by simp)
      have hNwfn : WFN m done (TreeNode.mk ⟨joinSlash (done ++ [t]), t, .folder, 0, 0, 0⟩
          (insertParts m tag (t' :: rest) (done ++ [t]) [])) :=
        WFN.folder hslt hcpmem hIW hIP
      have hsub : ∀ x ∈ F, x ∈ sortSiblings (F ++
          [TreeNode.mk ⟨joinSlash (done ++ [t]), t, .folder, 0, 0, 0⟩
            (insertParts m tag (t' :: rest) (done ++ [t]) [])]) :=
        fun x hx => mem_sortSiblings.mpr (List.mem_append.mpr (Or.inl hx))
      have hNmem : TreeNode.mk ⟨joinSlash (done ++ [t]), t, .folder, 0, 0, 0⟩
          (insertParts m tag (t' :: rest) (done ++ [t]) []) ∈ sortSiblings (F ++
          [TreeNode.mk ⟨joinSlash (done ++ [t]), t, .folder, 0, 0, 0⟩
            (insertParts m tag (t' :: rest) (done ++ [t]) [])]) :=
        mem_sortSiblings.mpr (List.mem_append.mpr (Or.inr (List.mem_singleton.mpr rfl)))
      refine ⟨?_, ?_, fun _ => ⟨_, hNmem, rfl, rfl, Or.inl rfl, hIR (by simp)⟩,
        fun parts' hre => Reaches_mono hsub hre⟩
      · intro c hc
        rcases List.mem_append.mp (mem_sortSiblings.mp hc) with hc | hc
        · exact hF c hc
        · rw [List.mem_singleton] at hc
          subst hc
          exact hNwfn
      · refine sortSiblings_pairwise (List.pairwise_append.mpr ⟨hpw, by simp, ?_⟩)
        intro a ha b hb
        rw [List.mem_singleton] at hb
        subst hb
        intro ⟨e1, e2⟩
        exact findPred_none hfind a ha ⟨e1, e2⟩
    | some n =>
      obtain ⟨hT, hN⟩ := findPred_true (List.find?_some hfind)
      obtain ⟨pre, post, hFeq, hprefalse, hrep⟩ :=
        replaceFind_spec (findPred t (joinSlash (done ++ [t])))
          (fun n => TreeNode.mk n.data
            (insertParts m tag (t' :: rest) (done ++ [t]) (sortSiblings n.nodes)))
          F n hfind
      rw [hrep]
      have hnmem : n ∈ F := hFeq ▸ List.mem_append.mpr (Or.inr (List.mem_cons_self _ _))
      have hnwf : WFN m done n := hF n hnmem
      have hnotpage : n.data.nodeType ≠ .page := by
        intro hp
        exact hd _ hcpmem (hN ▸ hnwf.page_name hp)
      have hftag : n.data.nodeType = .folder ∨ n.data.nodeType = .tag := by
        rcases hnwf.type_cases with h | h | h
        · exact absurd h hnotpage
        · exact Or.inl h
        · exact Or.inr h
      have hch : ∀ c ∈ n.nodes, WFN m (done ++ [t]) c := by
        have := (hnwf.ft_children hnotpage).1
        rwa [hT] at this
      have hchpw : n.nodes.Pairwise distinctTN := (hnwf.ft_children hnotpage).2
      obtain ⟨hIW, hIP, hIR, hIM⟩ :=
        insertParts_wfn m tag hd hnd htag (t' :: rest) (done ++ [t])
          (sortSiblings n.nodes) hsplit'
          (fun c hc => hch c (mem_sortSiblings.mp hc))
          (sortSiblings_pairwise hchpw)
      have hfn_wfn : WFN m done (TreeNode.mk n.data
          (insertParts m tag (t' :: rest) (done ++ [t]) (sortSiblings n.nodes))) := by
        refine hnwf.rebuild hnotpage ?_ hIP
        rw [hT]
        exact hIW
      have hmidmem : TreeNode.mk n.data
          (insertParts m tag (t' :: rest) (done ++ [t]) (sortSiblings n.nodes)) ∈
          pre ++ TreeNode.mk n.data
            (insertParts m tag (t' :: rest) (done ++ [t]) (sortSiblings n.nodes)) :: post :=
        List.mem_append.mpr (Or.inr (List.mem_cons_self _ _))
      refine ⟨?_, ?_, ?_, ?_⟩
      · intro c hc
        rcases List.mem_append.mp hc with hc | hc
        · exact hF c (hFeq ▸ List.mem_append.mpr (Or.inl hc))
        · rcases List.mem_cons.mp hc with rfl | hc
          · exact hfn_wfn
          · exact hF c (hFeq ▸ List.mem_append.mpr (Or.inr (List.mem_cons.mpr (Or.inr hc))))
      · exact pairwise_distinctTN_middle (x := n) rfl rfl
          (show (pre ++ n :: post).Pairwise distinctTN from hFeq ▸ hpw)
      · intro _
        exact ⟨_, hmidmem, hT, hN, hftag, hIR (by simp)⟩
      · intro parts' hre
        cases parts' with
        | nil => trivial
        | cons s rest' =>
          cases rest' with
          | nil =>
            obtain ⟨n', hn', hT', hN', hty'⟩ := hre
            by_cases hsame : n'.data.title = t ∧ n'.data.name = joinSlash (done ++ [t])
            · have heq : n' = n := unique_by_pairwise hpw hn' hnmem
                (hsame.1.trans hT.symm) (hsame.2.trans hN.symm)
              subst heq
              exact ⟨_, hmidmem, hT', hN', hty'⟩
            · have hne : n' ≠ n := fun he => hsame ⟨he ▸ hT, he ▸ hN⟩
              have : n' ∈ pre ++ n :: post := hFeq ▸ hn'
              rcases List.mem_append.mp this with h | h
              · exact ⟨n', List.mem_append.mpr (Or.inl h), hT', hN', hty'⟩
              · rcases List.mem_cons.mp h with h | h
                · exact absurd h hne
                · exact ⟨n', List.mem_append.mpr (Or.inr (List.mem_cons.mpr (Or.inr h))),
                    hT', hN', hty'⟩
          | cons s' rest'' =>
            obtain ⟨n', hn', hT', hN', htyOr, htail⟩ := hre
            by_cases hsame : n'.data.title = t ∧ n'.data.name = joinSlash (done ++ [t])
            · have heq : n' = n := unique_by_pairwise hpw hn' hnmem
                (hsame.1.trans hT.symm) (hsame.2.trans hN.symm)
              subst heq
              refine ⟨_, hmidmem, hT', hN', htyOr, ?_⟩
              have hctx : done ++ [s] = done ++ [t] := by rw [hT'.symm.trans hT]
              rw [hctx]
              rw [hctx] at htail
              exact hIM (s' :: rest'')
                (Reaches_mono (fun x hx => mem_sortSiblings.mpr hx) htail)
            · have hne : n' ≠ n := fun he => hsame ⟨he ▸ hT, he ▸ hN⟩
              have : n' ∈ pre ++ n :: post := hFeq ▸ hn'
              rcases List.mem_append.mp this with h | h
              · exact ⟨n', List.mem_append.mpr (Or.inl h), hT', hN', htyOr, htail⟩
              · rcases List.mem_cons.mp h with h | h
                · exact absurd h hne
                · exact ⟨n', List.mem_append.mpr (Or.inr (List.mem_cons.mpr (Or.inr h))),
                    hT', hN', htyOr, htail⟩

/-! ### Counting folder/tag nodes by depth -/

theorem WFN.ft_name {m : List (String × List String)} {C : List String} {n : TreeNode}
    (h : WFN m C n) (hnp : n.data.nodeType ≠ .page) :
    n.data.name = joinSlash (C ++ [n.data.title]) ∧ slashFree n.data.title := by
  cases h with
  | page hp => exact absurd rfl hnp
  | folder h1 h2 h3 h4 => exact ⟨rfl, h1⟩
  | tag h1 h2 h3 h4 => exact ⟨rfl, h1⟩

theorem WFN.page_nodes {m : List (String × List String)} {C : List String} {n : TreeNode}
    (h : WFN m C n) (hp : n.data.nodeType = .page) : n.nodes = [] := by
  cases h with
  | page hmem => rfl
  | folder h1 h2 h3 h4 => simp at hp
  | tag h1 h2 h3 h4 => simp at hp

theorem countAtDepth_nil (k : Nat) (p : NodeData → Bool) : countAtDepth k p [] = 0 := by
  cases k <;> simp [countAtDepth]

theorem countAtDepth_cons_succ (k : Nat) (p : NodeData → Bool) (c : TreeNode)
    (F : List TreeNode) :
    countAtDepth (k + 1) p (c :: F) =
      countAtDepth k p c.nodes + countAtDepth (k + 1) p F := by
  simp [countAtDepth]

theorem count_pos_exists {F : List TreeNode} {g : TreeNode → Nat}
    (h : 0 < (F.map g).sum) : ∃ c ∈ F, 0 < g c := by
  induction F with
  | nil => simp at h
  | cons c F ih =>
    rw [List.map_cons, List.sum_cons] at h
    by_cases hc : 0 < g c
    · exact ⟨c, List.mem_cons_self _ _, hc⟩
    · have : 0 < (F.map g).sum := by omega
      obtain ⟨c', hc', hpos⟩ := ih this
      exact ⟨c', List.mem_cons.mpr (Or.inr hc'), hpos⟩

theorem count_pos_shape {m : List (String × List String)} {s : String} :
    ∀ (k : Nat) (C : List String) (F : List TreeNode),
      (∀ c ∈ F, WFN m C c) →
      0 < countAtDepth k (ftNamed s) F →
      ∃ segs, segs.length = k + 1 ∧ (∀ x ∈ segs, slashFree x) ∧
        s = joinSlash (C ++ segs)
  | 0, C, F, hF, hpos => by
    simp only [countAtDepth] at hpos
    obtain ⟨n, hn⟩ := List.exists_mem_of_length_pos hpos
    obtain ⟨hnF, hpred⟩ := List.mem_filter.mp hn
    obtain ⟨hname, hft⟩ := of_decide_eq_true hpred
    have hnp : n.data.nodeType ≠ .page := by
      rcases hft with h | h <;> simp [h]
    obtain ⟨hN, hsl⟩ := (hF n hnF).ft_name hnp
    exact ⟨[n.data.title], rfl, by simpa using hsl, by rw [← hname, hN]⟩
  | k + 1, C, F, hF, hpos => by
    simp only [countAtDepth] at hpos
    obtain ⟨c, hcF, hcpos⟩ := count_pos_exists hpos
    have hwc : WFN m C c := hF c hcF
    have hnp : c.data.nodeType ≠ .page := by
      intro hp
      rw [hwc.page_nodes hp, countAtDepth_nil] at hcpos
      exact absurd hcpos (by simp)
    obtain ⟨hN, hsl⟩ := hwc.ft_name hnp
    obtain ⟨segs', hlen, hslf, hs⟩ :=
      count_pos_shape k (C ++ [c.data.title]) c.nodes
        ((hwc.ft_children hnp).1) hcpos
    refine ⟨c.data.title :: segs', by simp [hlen], ?_, ?_⟩
    · intro x hx
      rcases List.mem_cons.mp hx with rfl | hx
      · exact hsl
      · exact hslf x hx
    · have e : (C ++ [c.data.title]) ++ segs' = C ++ c.data.title :: segs' := by simp
      rw [hs, e]

theorem length_le_one_of_pairwise_absurd {α : Type} {l : List α} {R : α → α → Prop}
    (hpw : l.Pairwise R) (h : ∀ a b, a ∈ l → b ∈ l → R a b → False) : l.length ≤ 1 := by
  cases l with
  | nil => simp
  | cons a l' =>
    cases l' with
    | nil => simp
    | cons b l'' =>
      rw [List.pairwise_cons] at hpw
      exact absurd (hpw.1 b (List.mem_cons_self _ _))
        (fun hr => h a b (List.mem_cons_self _ _)
          (List.mem_cons.mpr (Or.inr (List.mem_cons_self _ _))) hr)

theorem count_le_one {m : List (String × List String)} {s : String} :
    ∀ (k : Nat) (C : List String) (F : List TreeNode),
      (∀ x ∈ C, slashFree x) →
      (∀ c ∈ F, WFN m C c) → F.Pairwise distinctTN →
      countAtDepth k (ftNamed s) F ≤ 1 := by
  intro k
  induction k with
  | zero =>
    intro C F hC hF hpw
    simp only [countAtDepth]
    refine length_le_one_of_pairwise_absurd (hpw.filter _) ?_
    intro a b ha hb hR
    obtain ⟨haF, hapred⟩ := List.mem_filter.mp ha
    obtain ⟨hbF, hbpred⟩ := List.mem_filter.mp hb
    obtain ⟨haname, haft⟩ := of_decide_eq_true hapred
    obtain ⟨hbname, hbft⟩ := of_decide_eq_true hbpred
    have hanp : a.data.nodeType ≠ .page := by rcases haft with h | h <;> simp [h]
    have hbnp : b.data.nodeType ≠ .page := by rcases hbft with h | h <;> simp [h]
    obtain ⟨haN, hasl⟩ := (hF a haF).ft_name hanp
    obtain ⟨hbN, hbsl⟩ := (hF b hbF).ft_name hbnp
    have hj : joinSlash (C ++ [a.data.title]) = joinSlash (C ++ [b.data.title]) := by
      rw [← haN, ← hbN, haname, hbname]
    have hlists : C ++ [a.data.title] = C ++ [b.data.title] :=
      joinSlash_inj (by simp) (by simp)
        (by intro x hx
            rcases List.mem_append.mp hx with hx | hx
            · exact hC x hx
            · rw [List.mem_singleton] at hx; subst hx; exact hasl)
        (by intro x hx
            rcases List.mem_append.mp hx with hx | hx
            · exact hC x hx
            · rw [List.mem_singleton] at hx; subst hx; exact hbsl) hj
    have htitle : a.data.title = b.data.title := by
      have := List.append_cancel_left hlists
      simpa using this
    exact hR ⟨htitle, haname.trans hbname.symm⟩
  | succ k ihk =>
    intro C F hC hF hpw
    induction F with
    | nil => simp [countAtDepth_nil]
    | cons c F ihF =>
      rw [countAtDepth_cons_succ]
      rw [List.pairwise_cons] at hpw
      by_cases hc0 : countAtDepth k (ftNamed s) c.nodes = 0
      · rw [hc0]
        simpa using ihF (fun x hx => hF x (List.mem_cons.mpr (Or.inr hx))) hpw.2
      · have hcpos : 0 < countAtDepth k (ftNamed s) c.nodes := Nat.pos_of_ne_zero hc0
        have hwc : WFN m C c := hF c (List.mem_cons_self _ _)
        have hnp : c.data.nodeType ≠ .page := by
          intro hp
          rw [hwc.page_nodes hp, countAtDepth_nil] at hcpos
          exact absurd hcpos (by simp)
        obtain ⟨hcN, hcsl⟩ := hwc.ft_name hnp
        have hC' : ∀ x ∈ C ++ [c.data.title], slashFree x := by
          intro x hx
          rcases List.mem_append.mp hx with hx | hx
          · exact hC x hx
          · rw [List.mem_singleton] at hx; subst hx; exact hcsl
        have h1 : countAtDepth k (ftNamed s) c.nodes ≤ 1 :=
          ihk (C ++ [c.data.title]) c.nodes hC' ((hwc.ft_children hnp).1)
            ((hwc.ft_children hnp).2)
        have h2 : countAtDepth (k + 1) (ftNamed s) F = 0 := by
          by_contra hne
          have hpos : 0 < countAtDepth (k + 1) (ftNamed s) F := Nat.pos_of_ne_zero hne
          simp only [countAtDepth] at hpos
          obtain ⟨c', hc'F, hc'pos⟩ := count_pos_exists hpos
          have hwc' : WFN m C c' := hF c' (List.mem_cons.mpr (Or.inr hc'F))
          have hnp' : c'.data.nodeType ≠ .page := by
            intro hp
            rw [hwc'.page_nodes hp, countAtDepth_nil] at hc'pos
            exact absurd hc'pos (by simp)
          obtain ⟨hc'N, hc'sl⟩ := hwc'.ft_name hnp'
          obtain ⟨segs1, hlen1, hslf1, hs1⟩ :=
            count_pos_shape k (C ++ [c.data.title]) c.nodes
              ((hwc.ft_children hnp).1) hcpos
          obtain ⟨segs2, hlen2, hslf2, hs2⟩ :=
            count_pos_shape k (C ++ [c'.data.title]) c'.nodes
              ((hwc'.ft_children hnp').1) hc'pos
          have hj : joinSlash (C ++ c.data.title :: segs1) =
              joinSlash (C ++ c'.data.title :: segs2) := by
            have e1 : C ++ c.data.title :: segs1 = (C ++ [c.data.title]) ++ segs1 := by
              simp
            have e2 : C ++ c'.data.title :: segs2 = (C ++ [c'.data.title]) ++ segs2 := by
              simp
            rw [e1, e2, ← hs1, ← hs2]
          have hlists : C ++ c.data.title :: segs1 = C ++ c'.data.title :: segs2 :=
            joinSlash_inj (by simp) (by simp)
              (by intro x hx
                  rcases List.mem_append.mp hx with hx | hx
                  · exact hC x hx
                  · rcases List.mem_cons.mp hx with rfl | hx
                    · exact hcsl
                    · exact hslf1 x hx)
              (by intro x hx
                  rcases List.mem_append.mp hx with hx | hx
                  · exact hC x hx
                  · rcases List.mem_cons.mp hx with rfl | hx
                    · exact hc'sl
                    · exact hslf2 x hx) hj
          have htitle : c.data.title = c'.data.title := by
            have := List.append_cancel_left hlists
            exact (by simpa using this : _ ∧ _).1
          exact hpw.1 c' hc'F ⟨htitle, by rw [hcN, hc'N, htitle]⟩
        rw [h2]
        omega

theorem Reaches_count_pos :
    ∀ (parts done : List String) (F : List TreeNode),
      Reaches F done parts →
      ∀ k, k < parts.length →
        1 ≤ countAtDepth k (ftNamed (joinSlash (done ++ parts.take (k + 1)))) F
  | [], _, _, _, k, hk => by simp at hk
  | [s], done, F, hre, k, hk => by
    obtain rfl : k = 0 := by simpa using Nat.lt_one_iff.mp hk
    obtain ⟨n, hn, hT, hN, hty⟩ := hre
    simp only [countAtDepth, List.take]
    have hmem : n ∈ F.filter (fun c => ftNamed (joinSlash (done ++ [s])) c.data) := by
      refine List.mem_filter.mpr ⟨hn, decide_eq_true ⟨hN, Or.inr hty⟩⟩
    have := List.length_pos.mpr (List.ne_nil_of_mem hmem)
    simpa using this
  | s :: s' :: rest, done, F, hre, k, hk => by
    obtain ⟨n, hn, hT, hN, htyOr, htail⟩ := hre
    cases k with
    | zero =>
      simp only [countAtDepth, List.take]
      have hmem : n ∈ F.filter (fun c => ftNamed (joinSlash (done ++ [s])) c.data) := by
        refine List.mem_filter.mpr ⟨hn, decide_eq_true ⟨hN, htyOr⟩⟩
      have := List.length_pos.mpr (List.ne_nil_of_mem hmem)
      simpa using this
    | succ j =>
      have hj : j < (s' :: rest).length := by simpa using Nat.lt_of_succ_lt_succ hk
      have hih := Reaches_count_pos (s' :: rest) (done ++ [s]) n.nodes htail j hj
      have hpath : done ++ (s :: s' :: rest).take (j + 1 + 1) =
          (done ++ [s]) ++ (s' :: rest).take (j + 1) := by simp
      simp only [countAtDepth]
      rw [hpath]
      calc 1 ≤ countAtDepth j
            (ftNamed (joinSlash ((done ++ [s]) ++ (s' :: rest).take (j + 1)))) n.nodes :=
            hih
        _ ≤ (F.map (fun c => countAtDepth j
            (ftNamed (joinSlash ((done ++ [s]) ++ (s' :: rest).take (j + 1)))) c.nodes)).sum :=
          List.single_le_sum (fun x _ => Nat.zero_le x) _
            (List.mem_map.mpr ⟨n, hn, rfl⟩)

/-! ### Assembling the whole builder -/

theorem InF_nil {n : TreeNode} (h : InF n []) : False := by
  cases h with
  | here hmem => exact List.not_mem_nil _ hmem
  | deeper hmem _ => exact List.not_mem_nil _ hmem

theorem ord_of_inf {F : List TreeNode} {n : TreeNode} (hinf : InF n F)
    (hF : ∀ c ∈ F, OrdN c) : OrdN n := by
  induction hinf with
  | here hmem => exact hF _ hmem
  | deeper hmem hsub ih => exact ih ((hF _ hmem).childrenOrd)

theorem WFN.pairwiseChildren {m : List (String × List String)} {C : List String}
    {n : TreeNode} (h : WFN m C n) : n.nodes.Pairwise distinctTN := by
  cases h with
  | page hp => exact List.Pairwise.nil
  | folder h1 h2 h3 h4 => exact h4
  | tag h1 h2 h3 h4 => exact h4

theorem wfn_of_inf {m : List (String × List String)} {F : List TreeNode} {n : TreeNode}
    (hinf : InF n F) (hF : ∀ c ∈ F, ∃ C, WFN m C c) : ∃ C, WFN m C n := by
  induction hinf with
  | here hmem => exact hF _ hmem
  | deeper hmem hsub ih =>
    rename_i p F'
    obtain ⟨C, hwfp⟩ := hF p hmem
    rcases hwfp.type_cases with hty | hty | hty
    · rw [hwfp.page_nodes hty] at hsub
      exact absurd hsub (fun h => InF_nil h)
    · exact ih (fun c hc => ⟨C ++ [p.data.title], (hwfp.ft_children (by simp [hty])).1 c hc⟩)
    · exact ih (fun c hc => ⟨C ++ [p.data.title], (hwfp.ft_children (by simp [hty])).1 c hc⟩)

theorem fold_insert_wfn (m : List (String × List String))
    (hd : ∀ q ∈ allCumPaths m, ¬ q ∈ pagesU m)
    (hnd : ∀ t', (pagesOfM m t').Nodup) :
    ∀ (ts : List String) (F : List TreeNode),
      (∀ x ∈ ts, x ∈ tagsOf m) →
      (∀ c ∈ F, WFN m [] c) → F.Pairwise distinctTN →
      (∀ c ∈ ts.foldl (fun forest tag => insertParts m tag (splitSlash tag) [] forest) F,
          WFN m [] c) ∧
        (ts.foldl (fun forest tag =>
          insertParts m tag (splitSlash tag) [] forest) F).Pairwise distinctTN ∧
        (∀ x ∈ ts, Reaches (ts.foldl (fun forest tag =>
          insertParts m tag (splitSlash tag) [] forest) F) [] (splitSlash x)) ∧
        (∀ parts', Reaches F [] parts' →
          Reaches (ts.foldl (fun forest tag =>
            insertParts m tag (splitSlash tag) [] forest) F) [] parts')
  | [], F, hts, hF, hpw => ⟨hF, hpw, by simp, fun _ h => h⟩
  | t :: ts, F, hts, hF, hpw => by
    have htag : t ∈ tagsOf m := hts t (List.mem_cons_self _ _)
    obtain ⟨hW, hP, hR, hM⟩ :=
      insertParts_wfn m t hd hnd htag (splitSlash t) [] F (by simp) hF hpw
    rw [List.foldl_cons]
    obtain ⟨hW', hP', hR', hM'⟩ :=
      fold_insert_wfn m hd hnd ts (insertParts m t (splitSlash t) [] F)
        (fun x hx => hts x (List.mem_cons.mpr (Or.inr hx))) hW hP
    refine ⟨hW', hP', ?_, fun parts' hre => hM' parts' (hM parts' hre)⟩
    intro x hx
    rcases List.mem_cons.mp hx with rfl | hx
    · exact hM' (splitSlash x) (hR (splitSlash_ne_nil x))
    · exact hR' x hx

theorem fold_insert_ord (m : List (String × List String)) :
    ∀ (ts : List String) (F : List TreeNode),
      (∀ c ∈ F, OrdN c) → F.Sorted siblingR →
      (∀ c ∈ ts.foldl (fun forest tag => insertParts m tag (splitSlash tag) [] forest) F,
          OrdN c) ∧
        (ts.foldl (fun forest tag =>
          insertParts m tag (splitSlash tag) [] forest) F).Sorted siblingR
  | [], F, hF, hS => ⟨hF, hS⟩
  | t :: ts, F, hF, hS => by
    obtain ⟨hW, hP⟩ := insertParts_ord m t (splitSlash t) [] F hF hS
    rw [List.foldl_cons]
    exact fold_insert_ord m ts _ hW hP

theorem fold_insert_tcn (m : List (String × List String)) :
    ∀ (ts : List String) (F : List TreeNode),
      (∀ c ∈ F, TCN m c) →
      ∀ c ∈ ts.foldl (fun forest tag => insertParts m tag (splitSlash tag) [] forest) F,
        TCN m c
  | [], _, hF => hF
  | t :: ts, F, hF => by
    rw [List.foldl_cons]
    exact fold_insert_tcn m ts _ (insertParts_tcn m t (splitSlash t) [] F (by simp) hF)

theorem buildTagTree_wfn (es : List (Option TagIndexEntry)) (hcf : CollisionFree es) :
    (∀ c ∈ buildTagTree es, WFN (tagPageMap es) [] c) ∧
      (buildTagTree es).Pairwise distinctTN ∧
      (∀ t ∈ tagsOf (tagPageMap es), Reaches (buildTagTree es) [] (splitSlash t)) := by
  obtain ⟨hW, hP, hR, _⟩ :=
    fold_insert_wfn (tagPageMap es) hcf (nodup_pagesOfM es)
      (List.insertionSort strLe (tagsOf (tagPageMap es))) []
      (fun x hx => (List.perm_insertionSort strLe _).mem_iff.mp hx)
      (by simp) List.Pairwise.nil
  exact ⟨hW, hP, fun t ht =>
    hR t ((List.perm_insertionSort strLe _).mem_iff.mpr ht)⟩

theorem buildTagTree_ord (es : List (Option TagIndexEntry)) :
    (∀ c ∈ buildTagTree es, OrdN c) ∧ (buildTagTree es).Sorted siblingR :=
  fold_insert_ord (tagPageMap es)
    (List.insertionSort strLe (tagsOf (tagPageMap es))) [] (by simp) List.Pairwise.nil

theorem buildTagTree_tcn (es : List (Option TagIndexEntry)) :
    ∀ c ∈ buildTagTree es, TCN (tagPageMap es) c :=
  fold_insert_tcn (tagPageMap es)
    (List.insertionSort strLe (tagsOf (tagPageMap es))) [] (by simp)

/-! ### Outline builder: spine insertion versus recursive descent -/

theorem insertHeader_ne_nil (h : NodeData) : ∀ (F : List TreeNode), insertHeader h F ≠ []
  | [] => by simp [insertHeader]
  | [.mk d ns] => by
    simp only [insertHeader]
    split_ifs <;> simp
  | n :: n' :: rest => by
    simp [insertHeader]

theorem insertHeader_frozen (h : NodeData) :
    ∀ (F G : List TreeNode), G ≠ [] → insertHeader h (F ++ G) = F ++ insertHeader h G
  | [], G, hG => by simp
  | c :: F', G, hG => by
    obtain ⟨x, xs, hxs⟩ := List.exists_cons_of_ne_nil
      (show F' ++ G ≠ [] by simp [hG])
    have : insertHeader h ((c :: F') ++ G) = c :: insertHeader h (F' ++ G) := by
      rw [List.cons_append]
      rw [show F' ++ G = x :: xs from hxs]
      simp only [insertHeader]
    rw [this, insertHeader_frozen h F' G hG, List.cons_append]

theorem foldl_insertHeader_ne_nil :
    ∀ (hs : List NodeData) (F : List TreeNode), F ≠ [] →
      List.foldl (fun F h => insertHeader h F) F hs ≠ []
  | [], F, hF => hF
  | h :: hs, F, hF => by
    rw [List.foldl_cons]
    exact foldl_insertHeader_ne_nil hs _ (insertHeader_ne_nil h F)

theorem foldl_insertHeader_frozen :
    ∀ (hs : List NodeData) (F G : List TreeNode), G ≠ [] →
      List.foldl (fun F h => insertHeader h F) (F ++ G) hs =
        F ++ List.foldl (fun F h => insertHeader h F) G hs
  | [], F, G, hG => rfl
  | h :: hs, F, G, hG => by
    rw [List.foldl_cons, List.foldl_cons, insertHeader_frozen h F G hG]
    exact foldl_insertHeader_frozen hs F (insertHeader h G) (insertHeader_ne_nil h G)

theorem insertHeader_descend (h d : NodeData) (C : List TreeNode)
    (hlt : d.level < h.level) :
    ∀ (F : List TreeNode),
      insertHeader h (F ++ [.mk d C]) = F ++ [.mk d (insertHeader h C)]
  | [] => by simp [insertHeader, hlt]
  | c :: F' => by
    obtain ⟨x, xs, hxs⟩ := List.exists_cons_of_ne_nil
      (show F' ++ [TreeNode.mk d C] ≠ [] by simp)
    have : insertHeader h ((c :: F') ++ [TreeNode.mk d C]) =
        c :: insertHeader h (F' ++ [TreeNode.mk d C]) := by
      rw [List.cons_append, show F' ++ [TreeNode.mk d C] = x :: xs from hxs]
      simp only [insertHeader]
    rw [this, insertHeader_descend h d C hlt F', List.cons_append]

theorem insertHeader_stay (h d : NodeData) (C : List TreeNode)
    (hlt : ¬ d.level < h.level) :
    ∀ (F : List TreeNode),
      insertHeader h (F ++ [.mk d C]) = (F ++ [.mk d C]) ++ [.mk h []]
  | [] => by simp [insertHeader, hlt]
  | c :: F' => by
    obtain ⟨x, xs, hxs⟩ := List.exists_cons_of_ne_nil
      (show F' ++ [TreeNode.mk d C] ≠ [] by simp)
    have : insertHeader h ((c :: F') ++ [TreeNode.mk d C]) =
        c :: insertHeader h (F' ++ [TreeNode.mk d C]) := by
      rw [List.cons_append, show F' ++ [TreeNode.mk d C] = x :: xs from hxs]
      simp only [insertHeader]
    rw [this, insertHeader_stay h d C hlt F']
    simp

theorem foldl_spine :
    ∀ (hs : List NodeData) (F : List TreeNode) (d : NodeData) (C : List TreeNode),
      List.foldl (fun F h => insertHeader h F) (F ++ [.mk d C]) hs =
        List.foldl (fun F h => insertHeader h F)
          (F ++ [.mk d (List.foldl (fun F h => insertHeader h F) C
            (hs.takeWhile (fun x => d.level < x.level)))])
          (hs.dropWhile (fun x => d.level < x.level))
  | [], F, d, C => by simp
  | h :: hs, F, d, C => by
    by_cases hlt : d.level < h.level
    · rw [List.takeWhile_cons_of_pos (by simpa using hlt),
        List.dropWhile_cons_of_pos (by simpa using hlt),
        List.foldl_cons, List.foldl_cons, insertHeader_descend h d C hlt F]
      exact foldl_spine hs F d (insertHeader h C)
    · rw [List.takeWhile_cons_of_neg (by simpa using hlt),
        List.dropWhile_cons_of_neg (by simpa using hlt)]
      rfl

theorem dropWhile_head_false {α : Type} {p : α → Bool} :
    ∀ (l : List α) (a : α) (t2 : List α), l.dropWhile p = a :: t2 → p a = false
  | [], a, t2, h => by simp [List.dropWhile] at h
  | x :: xs, a, t2, h => by
    by_cases hp : p x = true
    · rw [List.dropWhile_cons_of_pos hp] at h
      exact dropWhile_head_false xs a t2 h
    · rw [List.dropWhile_cons_of_neg hp] at h
      obtain ⟨rfl, -⟩ : x = a ∧ xs = t2 := by
        constructor <;> injection h
      simpa using hp

theorem takeWhile_append_all {α : Type} {p : α → Bool} :
    ∀ (u l : List α), (∀ y ∈ u, p y = true) →
      (u ++ l).takeWhile p = u ++ l.takeWhile p
  | [], l, _ => rfl
  | x :: u, l, hu => by
    rw [List.cons_append, List.takeWhile_cons_of_pos (hu x (List.mem_cons_self _ _)),
      takeWhile_append_all u l (fun y hy => hu y (List.mem_cons.mpr (Or.inr hy))),
      List.cons_append]

theorem dropWhile_append_all {α : Type} {p : α → Bool} :
    ∀ (u l : List α), (∀ y ∈ u, p y = true) →
      (u ++ l).dropWhile p = l.dropWhile p
  | [], l, _ => rfl
  | x :: u, l, hu => by
    rw [List.cons_append, List.dropWhile_cons_of_pos (hu x (List.mem_cons_self _ _))]
    exact dropWhile_append_all u l (fun y hy => hu y (List.mem_cons.mpr (Or.inr hy)))

theorem getLast?_none_iff {α : Type} {l : List α} : l.getLast? = none ↔ l = [] := by
  rw [← Option.not_isSome_iff_eq_none, List.getLast?_isSome]
  exact not_not

theorem getLast?_cons_of_ne_nil {α : Type} {a : α} :
    ∀ {l : List α}, l ≠ [] → (a :: l).getLast? = l.getLast?
  | [], h => absurd rfl h
  | _ :: _, _ => List.getLast?_cons_cons ..

theorem getLast?_append_right {α : Type} {B : List α} (hB : B ≠ []) :
    ∀ (A : List α), (A ++ B).getLast? = B.getLast?
  | [] => by simp
  | a :: A => by
    rw [List.cons_append, getLast?_cons_of_ne_nil (by simp [hB]), getLast?_append_right hB A]

theorem buildOutline_eq_buildO : ∀ (hs : List NodeData), buildOutline hs = buildO hs
  | [] => by simp [buildOutline, buildO]
  | h :: t => by
    show List.foldl (fun F h => insertHeader h F) [] (h :: t) = buildO (h :: t)
    rw [List.foldl_cons]
    have h0 : insertHeader h ([] : List TreeNode) = [TreeNode.mk h []] := by
      simp [insertHeader]
    rw [h0]
    have hspine := foldl_spine t [] h []
    simp only [List.nil_append] at hspine
    rw [hspine]
    have hsubeq : List.foldl (fun F h => insertHeader h F) []
        (t.takeWhile (fun x => h.level < x.level)) =
        buildO (t.takeWhile (fun x => h.level < x.level)) :=
      buildOutline_eq_buildO (t.takeWhile (fun x => h.level < x.level))
    rw [hsubeq]
    have hO : buildO (h :: t) =
        TreeNode.mk h (buildO (t.takeWhile (fun x => h.level < x.level))) ::
          buildO (t.dropWhile (fun x => h.level < x.level)) := by
      rw [buildO]
    rw [hO]
    cases hafter : t.dropWhile (fun x => h.level < x.level) with
    | nil => simp [buildO]
    | cons a t2 =>
      have hlt : ¬ h.level < a.level := by
        simpa using dropWhile_head_false t a t2 hafter
      rw [List.foldl_cons]
      have hstay := insertHeader_stay a h
        (buildO (t.takeWhile (fun x => h.level < x.level))) hlt []
      simp only [List.nil_append] at hstay
      rw [hstay]
      have hfro := foldl_insertHeader_frozen t2
        [TreeNode.mk h (buildO (t.takeWhile (fun x => h.level < x.level)))]
        [TreeNode.mk a []] (by simp)
      rw [hfro]
      have hrec : List.foldl (fun F h => insertHeader h F) [TreeNode.mk a []] t2 =
          buildO (a :: t2) := by
        have : List.foldl (fun F h => insertHeader h F) [TreeNode.mk a []] t2 =
            buildOutline (a :: t2) := by
          show _ = List.foldl (fun F h => insertHeader h F) [] (a :: t2)
          rw [List.foldl_cons,
            show insertHeader a ([] : List TreeNode) = [TreeNode.mk a []] from by
              simp [insertHeader]]
        rw [this]
        exact buildOutline_eq_buildO (a :: t2)
      rw [hrec]
      rfl
  termination_by hs => hs.length
  decreasing_by
  · simpa using Nat.lt_succ_of_le (List.Sublist.length_le (List.takeWhile_sublist _))
  · have : (a :: t2).length ≤ t.length := by
      rw [← hafter]
      exact List.Sublist.length_le (List.dropWhile_sublist _)
    simpa using Nat.lt_succ_of_le this

theorem InF_cons {n c : TreeNode} {F : List TreeNode} (h : InF n F) : InF n (c :: F) := by
  cases h with
  | here hmem => exact InF.here (List.mem_cons.mpr (Or.inr hmem))
  | deeper hmem hsub => exact InF.deeper (List.mem_cons.mpr (Or.inr hmem)) hsub

theorem InF_under_head {n : TreeNode} {h : NodeData} {G rest : List TreeNode}
    (hin : InF n G) : InF n (.mk h G :: rest) :=
  InF.deeper (List.mem_cons_self _ _) hin

theorem InF_cons_inv {n c : TreeNode} {F : List TreeNode} (h : InF n (c :: F)) :
    n = c ∨ InF n c.nodes ∨ InF n F := by
  cases h with
  | here hmem =>
    rcases List.mem_cons.mp hmem with rfl | hmem
    · exact Or.inl rfl
    · exact Or.inr (Or.inr (InF.here hmem))
  | deeper hmem hsub =>
    rcases List.mem_cons.mp hmem with rfl | hmem
    · exact Or.inr (Or.inl hsub)
    · exact Or.inr (Or.inr (InF.deeper hmem hsub))

theorem ParentChild_cons {F : List TreeNode} {c : TreeNode} {p x : NodeData}
    (h : ParentChild F p x) : ParentChild (c :: F) p x := by
  obtain ⟨n, hinf, hd, ch, hch, hcd⟩ := h
  exact ⟨n, InF_cons hinf, hd, ch, hch, hcd⟩

theorem ParentChild_under_head {G rest : List TreeNode} {h : NodeData} {p x : NodeData}
    (hpc : ParentChild G p x) : ParentChild (.mk h G :: rest) p x := by
  obtain ⟨n, hinf, hd, ch, hch, hcd⟩ := hpc
  exact ⟨n, InF_under_head hinf, hd, ch, hch, hcd⟩

theorem root_child {h : NodeData} {G rest : List TreeNode} {x : NodeData}
    (hx : x ∈ rootsData G) : ParentChild (.mk h G :: rest) h x := by
  obtain ⟨ch, hch, hcd⟩ := List.mem_map.mp hx
  exact ⟨.mk h G, InF.here (List.mem_cons_self _ _), rfl, ch, hch, hcd⟩

theorem flattenF_buildO : ∀ (hs : List NodeData), flattenF (buildO hs) = hs
  | [] => by rw [buildO]; rfl
  | h :: t => by
    rw [buildO]
    show flattenT (.mk h (buildO (t.takeWhile (fun x => h.level < x.level)))) ++
      flattenF (buildO (t.dropWhile (fun x => h.level < x.level))) = h :: t
    rw [show flattenT (.mk h (buildO (t.takeWhile (fun x => h.level < x.level)))) =
      h :: flattenF (buildO (t.takeWhile (fun x => h.level < x.level))) from rfl]
    rw [flattenF_buildO (t.takeWhile (fun x => h.level < x.level)),
      flattenF_buildO (t.dropWhile (fun x => h.level < x.level))]
    simp [List.takeWhile_append_dropWhile]
  termination_by hs => hs.length
  decreasing_by
  · simpa using Nat.lt_succ_of_le (List.Sublist.length_le (List.takeWhile_sublist _))
  · simpa using Nat.lt_succ_of_le (List.Sublist.length_le (List.dropWhile_sublist _))

theorem rootsData_buildO_sublist : ∀ (hs : List NodeData),
    (rootsData (buildO hs)).Sublist hs
  | [] => by rw [buildO]; simp [rootsData]
  | h :: t => by
    rw [buildO]
    show (rootsData (TreeNode.mk h (buildO (t.takeWhile (fun x => h.level < x.level))) ::
      buildO (t.dropWhile (fun x => h.level < x.level)))).Sublist (h :: t)
    rw [show rootsData (TreeNode.mk h (buildO (t.takeWhile (fun x => h.level < x.level))) ::
      buildO (t.dropWhile (fun x => h.level < x.level))) =
      h :: rootsData (buildO (t.dropWhile (fun x => h.level < x.level))) from rfl]
    exact List.Sublist.cons₂ h
      ((rootsData_buildO_sublist (t.dropWhile (fun x => h.level < x.level))).trans
        (List.dropWhile_sublist _))
  termination_by hs => hs.length
  decreasing_by
  · simpa using Nat.lt_succ_of_le (List.Sublist.length_le (List.dropWhile_sublist _))

theorem childrenData_buildO_sublist : ∀ (hs : List NodeData) (n : TreeNode),
    InF n (buildO hs) → (n.nodes.map TreeNode.data).Sublist hs
  | [], n, hinf => by
    rw [buildO] at hinf
    exact absurd hinf (fun h => InF_nil h)
  | h :: t, n, hinf => by
    rw [buildO] at hinf
    rcases InF_cons_inv hinf with rfl | hinf' | hinf'
    · show (rootsData (buildO (t.takeWhile (fun x => h.level < x.level)))).Sublist (h :: t)
      exact List.Sublist.cons h
        ((rootsData_buildO_sublist _).trans (List.takeWhile_sublist _))
    · exact List.Sublist.cons h
        ((childrenData_buildO_sublist (t.takeWhile (fun x => h.level < x.level)) n
          hinf').trans (List.takeWhile_sublist _))
    · exact List.Sublist.cons h
        ((childrenData_buildO_sublist (t.dropWhile (fun x => h.level < x.level)) n
          hinf').trans (List.dropWhile_sublist _))
  termination_by hs => hs.length
  decreasing_by
  · simpa using Nat.lt_succ_of_le (List.Sublist.length_le (List.takeWhile_sublist _))
  · simpa using Nat.lt_succ_of_le (List.Sublist.length_le (List.dropWhile_sublist _))

theorem filter_eq_nil_of_all {α : Type} {q : α → Bool} :
    ∀ {l : List α}, (∀ a ∈ l, q a = false) → l.filter q = []
  | [], _ => rfl
  | a :: l, h => by
    rw [List.filter_cons_of_neg (by simp [h a (List.mem_cons_self _ _)])]
    exact filter_eq_nil_of_all (fun b hb => h b (List.mem_cons.mpr (Or.inr hb)))

theorem mem_filter_ne_nil {α : Type} {q : α → Bool} {l : List α} {a : α}
    (ha : a ∈ l) (hq : q a = true) : l.filter q ≠ [] :=
  List.ne_nil_of_mem (List.mem_filter.mpr ⟨ha, hq⟩)

theorem buildO_parent :
    ∀ (hs pre post : List NodeData) (x : NodeData), hs = pre ++ x :: post →
      ((pre.filter (fun h => h.level < x.level)).getLast? = none →
        x ∈ rootsData (buildO hs)) ∧
      (∀ p, (pre.filter (fun h => h.level < x.level)).getLast? = some p →
        ParentChild (buildO hs) p x)
  | [], pre, post, x, heq => by simp at heq
  | h :: t, [], post, x, heq => by
    obtain ⟨rfl, rfl⟩ : h = x ∧ t = post := by
      constructor <;> injection heq
    constructor
    · intro _
      rw [buildO]
      exact List.mem_map.mpr ⟨_, List.mem_cons_self _ _, rfl⟩
    · intro p hp
      simp at hp
  | h :: t, h₀ :: pre', post, x, heq => by
    obtain ⟨rfl, ht⟩ : h = h₀ ∧ t = pre' ++ x :: post := by
      constructor <;> injection heq
    rw [ht]
    cases hdp : pre'.dropWhile (fun z => h.level < z.level) with
    | nil =>
      have hall : ∀ y ∈ pre', (h.level < y.level) = True := by
        intro y hy
        have hpre : pre' = pre'.takeWhile (fun z => h.level < z.level) := by
          conv_lhs => rw [← List.takeWhile_append_dropWhile
            (p := fun z => decide (h.level < z.level)) (l := pre')]
          rw [hdp, List.append_nil]
        rw [hpre] at hy
        simpa using List.mem_takeWhile_imp hy
      have hallb : ∀ y ∈ pre', (fun z => decide (h.level < z.level)) y = true := by
        intro y hy
        simpa using hall y hy
      by_cases hx : h.level < x.level
      · have hsub : (pre' ++ x :: post).takeWhile (fun z => h.level < z.level) =
            pre' ++ x :: post.takeWhile (fun z => h.level < z.level) := by
          rw [takeWhile_append_all pre' _ hallb,
            List.takeWhile_cons_of_pos (by simpa using hx)]
        have hafter : (pre' ++ x :: post).dropWhile (fun z => h.level < z.level) =
            post.dropWhile (fun z => h.level < z.level) := by
          rw [dropWhile_append_all pre' _ hallb,
            List.dropWhile_cons_of_pos (by simpa using hx)]
        obtain ⟨ihnone, ihsome⟩ :=
          buildO_parent ((pre' ++ x :: post).takeWhile (fun z => h.level < z.level))
            pre' (post.takeWhile (fun z => h.level < z.level)) x hsub
        have hfh : (h :: pre').filter (fun z => z.level < x.level) =
            h :: pre'.filter (fun z => z.level < x.level) :=
          List.filter_cons_of_pos (by simpa using hx)
        cases hfl : (pre'.filter (fun z => z.level < x.level)).getLast? with
        | none =>
          have hfe : pre'.filter (fun z => z.level < x.level) = [] :=
            getLast?_none_iff.mp hfl
          constructor
          · intro hnone
            rw [hfh, hfe] at hnone
            simp [List.getLast?_singleton] at hnone
          · intro p hp
            rw [hfh, hfe] at hp
            rw [List.getLast?_singleton] at hp
            obtain rfl : h = p := by injection hp
            rw [buildO]
            exact root_child (ihnone hfl)
        | some p₀ =>
          have hne : pre'.filter (fun z => z.level < x.level) ≠ [] := by
            intro he
            rw [he] at hfl
            simp at hfl
          constructor
          · intro hnone
            rw [hfh, getLast?_cons_of_ne_nil hne, hfl] at hnone
            simp at hnone
          · intro p hp
            rw [hfh, getLast?_cons_of_ne_nil hne, hfl] at hp
            obtain rfl : p₀ = p := by injection hp
            rw [buildO]
            exact ParentChild_under_head (ihsome p₀ hfl)
      · have hafter : (pre' ++ x :: post).dropWhile (fun z => h.level < z.level) =
            x :: post := by
          rw [dropWhile_append_all pre' _ hallb,
            List.dropWhile_cons_of_neg (by simpa using hx)]
        have hfe : (h :: pre').filter (fun z => z.level < x.level) = [] := by
          refine filter_eq_nil_of_all ?_
          intro y hy
          rcases List.mem_cons.mp hy with rfl | hy
          · simpa using hx
          · have h1 : h.level < y.level := of_eq_true (hall y hy)
            have : ¬ y.level < x.level := by omega
            simpa using this
        constructor
        · intro _
          rw [buildO]
          rw [show rootsData (TreeNode.mk h
              (buildO ((pre' ++ x :: post).takeWhile (fun z => h.level < z.level))) ::
              buildO ((pre' ++ x :: post).dropWhile (fun z => h.level < z.level))) =
            h :: rootsData (buildO ((pre' ++ x :: post).dropWhile
              (fun z => h.level < z.level))) from rfl]
          rw [hafter, buildO]
          exact List.mem_cons.mpr (Or.inr (List.mem_map.mpr ⟨_, List.mem_cons_self _ _, rfl⟩))
        · intro p hp
          rw [hfe] at hp
          simp at hp
    | cons y v =>
      have hyfalse : (decide (h.level < y.level)) = false :=
        dropWhile_head_false pre' y v hdp
      have hyle : ¬ h.level < y.level := by simpa using hyfalse
      have hu : pre' = pre'.takeWhile (fun z => h.level < z.level) ++ y :: v := by
        conv_lhs => rw [← List.takeWhile_append_dropWhile
          (p := fun z => decide (h.level < z.level)) (l := pre')]
        rw [hdp]
      have huall : ∀ z ∈ pre'.takeWhile (fun z => h.level < z.level),
          (fun z => decide (h.level < z.level)) z = true := by
        intro z hz
        simpa using List.mem_takeWhile_imp hz
      have hafter : (pre' ++ x :: post).dropWhile (fun z => h.level < z.level) =
          y :: (v ++ x :: post) := by
        conv_lhs => rw [hu]
        rw [List.append_assoc, List.cons_append,
          dropWhile_append_all _ _ huall,
          List.dropWhile_cons_of_neg (by simpa using hyle)]
      obtain ⟨ihnone, ihsome⟩ :=
        buildO_parent ((pre' ++ x :: post).dropWhile (fun z => h.level < z.level))
          (y :: v) post x (by rw [hafter]; simp)
      have hfsplit : (h :: pre').filter (fun z => z.level < x.level) =
          ((h :: pre'.takeWhile (fun z => h.level < z.level)).filter
            (fun z => z.level < x.level)) ++
          ((y :: v).filter (fun z => z.level < x.level)) := by
        conv_lhs => rw [hu]
        rw [show h :: (pre'.takeWhile (fun z => h.level < z.level) ++ y :: v) =
          (h :: pre'.takeWhile (fun z => h.level < z.level)) ++ (y :: v) from by simp,
          List.filter_append]
      cases hfl : ((y :: v).filter (fun z => z.level < x.level)).getLast? with
      | some p₀ =>
        have hne : (y :: v).filter (fun z => z.level < x.level) ≠ [] := by
          intro he
          rw [he] at hfl
          simp at hfl
        constructor
        · intro hnone
          rw [hfsplit, getLast?_append_right hne, hfl] at hnone
          simp at hnone
        · intro p hp
          rw [hfsplit, getLast?_append_right hne, hfl] at hp
          obtain rfl : p₀ = p := by injection hp
          rw [buildO]
          exact ParentChild_cons (ihsome p₀ hfl)
      | none =>
        have hfe : (y :: v).filter (fun z => z.level < x.level) = [] :=
          getLast?_none_iff.mp hfl
        have hxy : ¬ y.level < x.level := by
          intro hlt
          exact mem_filter_ne_nil (List.mem_cons_self y v) (by simpa using hlt) hfe
        have hfirst : (h :: pre'.takeWhile (fun z => h.level < z.level)).filter
            (fun z => z.level < x.level) = [] := by
          refine filter_eq_nil_of_all ?_
          intro z hz
          rcases List.mem_cons.mp hz with rfl | hz
          · have : ¬ z.level < x.level := by omega
            simpa using this
          · have h1 : h.level < z.level := by simpa using huall z hz
            have : ¬ z.level < x.level := by omega
            simpa using this
        constructor
        · intro _
          rw [buildO]
          rw [show rootsData (TreeNode.mk h
              (buildO ((pre' ++ x :: post).takeWhile (fun z => h.level < z.level))) ::
              buildO ((pre' ++ x :: post).dropWhile (fun z => h.level < z.level))) =
            h :: rootsData (buildO ((pre' ++ x :: post).dropWhile
              (fun z => h.level < z.level))) from rfl]
          exact List.mem_cons.mpr (Or.inr (ihnone hfl))
        · intro p hp
          rw [hfsplit, hfirst, hfe] at hp
          simp at hp
  termination_by hs _ _ _ => hs.length
  decreasing_by
  all_goals
    rw [ht]
    have hle := List.Sublist.length_le
      (List.takeWhile_sublist (l := pre' ++ x :: post) (fun z => decide (h.level < z.level)))
    have hle2 := List.Sublist.length_le
      (List.dropWhile_sublist (l := pre' ++ x :: post) (fun z => decide (h.level < z.level)))
    simp at hle hle2 ⊢
    omega

/-! ### Notification counting for the configuration loader -/

theorem configNotifications_eq (calls : List UserConfig) :
    configNotifications calls =
      (calls.filter (fun v => (parseConfig v).isNone)).length := by
  induction calls with
  | nil => rfl
  | cons c cs ih =>
    unfold configNotifications at ih ⊢
    rw [List.map_cons, List.count_cons]
    cases hpc : parseConfig c with
    | none =>
      rw [List.filter_cons_of_pos (by simp [hpc]), List.length_cons, ih]
      simp [getPlugConfig, hpc]
    | some c0 =>
      rw [List.filter_cons_of_neg (by simp [hpc]), ih]
      simp [getPlugConfig, hpc]

/-! ### The claims -/

/-- Claim C1, amended: for a collision-free input (no recorded page name
equal to a cumulative prefix path of a recorded tag), every recorded tag
name is reached by a chain of folder/tag nodes along its segment path
ending in a tag node, there is exactly one folder-or-tag node at each
depth `k` carrying the `k+1`-segment cumulative path as its name, and no
two siblings anywhere in the tree agree on both title and name.  The
collision-freedom hypothesis is necessary: see the counterexample. -/
theorem tagTree_unique_paths_of_collisionFree (es : List (Option TagIndexEntry))
    (hcf : CollisionFree es) :
    (∀ t ∈ tagsOf (tagPageMap es),
      Reaches (getTagTree (Except.ok es)).nodes [] (splitSlash t) ∧
      ∀ k, k < (splitSlash t).length →
        countAtDepth k (ftNamed (joinSlash ((splitSlash t).take (k + 1))))
          (getTagTree (Except.ok es)).nodes = 1) ∧
    ((getTagTree (Except.ok es)).nodes).Pairwise distinctTN ∧
    ∀ n, InF n (getTagTree (Except.ok es)).nodes → n.nodes.Pairwise distinctTN := by
  obtain ⟨hW, hP, hR⟩ := buildTagTree_wfn es hcf
  refine ⟨?_, hP, ?_⟩
  · intro t ht
    refine ⟨hR t ht, ?_⟩
    intro k hk
    refine Nat.le_antisymm ?_ ?_
    · exact count_le_one k [] (buildTagTree es) (by simp) hW hP
    · have := Reaches_count_pos (splitSlash t) [] (buildTagTree es) (hR t ht) k hk
      simpa using this
  · intro n hinf
    obtain ⟨C, hwf⟩ := wfn_of_inf hinf (fun c hc => ⟨[], hW c hc⟩)
    exact hwf.pairwiseChildren

/-- Claim C1, witness: the scenario input is collision-free and the
amended theorem applies to it. -/
theorem tagTree_unique_paths_witness :
    CollisionFree scenarioEntries ∧
    ((getTagTree (Except.ok scenarioEntries)).nodes).Pairwise distinctTN :=
  ⟨by decide, (tagTree_unique_paths_of_collisionFree scenarioEntries (by decide)).2.1⟩

/-- Claim C1, counterexample: on the input with tag `a` on page `a/b` and
tag `a/b` on page `x`, the recorded two-segment tag `a/b` has no
folder-or-tag node at depth 1 at all — the leaf segment is captured by the
page node named `a/b` and the tag node for `a/b` is never created. -/
theorem tagTree_path_collision_counterexample :
    "a/b" ∈ tagsOf (tagPageMap collideEntries) ∧
    splitSlash "a/b" = ["a", "b"] ∧
    countAtDepth 1 (ftNamed "a/b") (getTagTree (Except.ok collideEntries)).nodes = 0 := by
  refine ⟨?_, ?_, ?_⟩ <;> decide

/-- Claim C2, amended: the roots of the tag tree are sorted by the
sibling comparator (folder and tag both at rank 0 before page at rank 1,
then alphabetically by title), and the children of every node are either
sorted by that comparator or are the page children of a freshly created
tag node, which are sorted by full page name rather than by title. -/
theorem tagTree_sibling_order (es : List (Option TagIndexEntry)) :
    ((getTagTree (Except.ok es)).nodes).Sorted siblingR ∧
    ∀ n, InF n (getTagTree (Except.ok es)).nodes → ChildOrd n.nodes := by
  obtain ⟨hO, hS⟩ := buildTagTree_ord es
  exact ⟨hS, fun n hinf => (ord_of_inf hinf hO).childOrd⟩

/-- Claim C2, counterexample: a tag whose pages are `b/a` and `a/z` gets
page children sorted by full page name (`a/z` before `b/a`), whose titles
`z`, `a` are out of alphabetical order, so not every sibling list is
sorted by the title comparator. -/
theorem tagTree_sibling_sort_counterexample :
    ¬ ∀ es : List (Option TagIndexEntry),
        ((getTagTree (Except.ok es)).nodes).Sorted siblingR ∧
          ∀ n, InF n (getTagTree (Except.ok es)).nodes → n.nodes.Sorted siblingR := by
  intro hall
  have hmem : TreeNode.mk ⟨"x", "x", .tag, 2, 0, 0⟩ [pageNode "a/z", pageNode "b/a"] ∈
      (getTagTree (Except.ok titleOrderEntries)).nodes :=
    show _ ∈ [TreeNode.mk ⟨"x", "x", .tag, 2, 0, 0⟩ [pageNode "a/z", pageNode "b/a"]]
      from List.mem_singleton.mpr rfl
  have hsort := (hall titleOrderEntries).2 _ (InF.here hmem)
  exact absurd hsort (by decide)

/-- Claim C3, confirmed: every tag node of the tree stores as `pageCount`
the number of distinct page names associated with its full tag name by
the valid entries of the raw input, duplicates notwithstanding. -/
theorem tagTree_pageCount_distinct (es : List (Option TagIndexEntry)) :
    ∀ n, InF n (getTagTree (Except.ok es)).nodes → n.data.nodeType = .tag →
      n.data.pageCount = distinctPageCount es n.data.name := by
  intro n hinf hty
  have h := (tcn_of_inf hinf (buildTagTree_tcn es)).count hty
  rw [h, tagCountD_eq_length, distinctPageCount_eq]

/-- Claim C3, witness: the tag node `x` of the scenario input counts its
one distinct page. -/
theorem tagTree_pageCount_witness :
    (TreeNode.mk ⟨"x", "x", .tag, 1, 0, 0⟩ [pageNode "p1"]).data.pageCount
      = distinctPageCount scenarioEntries "x" :=
  tagTree_pageCount_distinct scenarioEntries
    (TreeNode.mk ⟨"x", "x", .tag, 1, 0, 0⟩ [pageNode "p1"])
    (InF.here (show _ ∈
      [TreeNode.mk ⟨"a", "a", .folder, 0, 0, 0⟩
          [TreeNode.mk ⟨"a/b", "b", .tag, 1, 0, 0⟩ [pageNode "p1"],
           TreeNode.mk ⟨"a/c", "c", .tag, 2, 0, 0⟩ [pageNode "p2", pageNode "p3"]],
        TreeNode.mk ⟨"x", "x", .tag, 1, 0, 0⟩ [pageNode "p1"]] from by simp)) rfl

/-- Claim C4, confirmed: the outline forest lists the scanned headers
exactly once in document order (its preorder flattening is the scan),
roots and every sibling list are subsequences of the document order, and
each header is a root when no preceding header has a strictly smaller
level, otherwise a child of the nearest preceding header of strictly
smaller level. -/
theorem outline_stack_algorithm (text : String) :
    flattenF (getOutlineTree (Except.ok text)).nodes = scanHeaders text ∧
    (rootsData (getOutlineTree (Except.ok text)).nodes).Sublist (scanHeaders text) ∧
    (∀ n, InF n (getOutlineTree (Except.ok text)).nodes →
      (n.nodes.map TreeNode.data).Sublist (scanHeaders text)) ∧
    ∀ pre x post, scanHeaders text = pre ++ x :: post →
      (nearestSmaller pre x.level = none →
        x ∈ rootsData (getOutlineTree (Except.ok text)).nodes) ∧
      ∀ p, nearestSmaller pre x.level = some p →
        ParentChild (getOutlineTree (Except.ok text)).nodes p x := by
  have he : (getOutlineTree (Except.ok text)).nodes = buildO (scanHeaders text) :=
    buildOutline_eq_buildO (scanHeaders text)
  rw [he]
  refine ⟨flattenF_buildO _, rootsData_buildO_sublist _,
    fun n hinf => childrenData_buildO_sublist _ n hinf, ?_⟩
  intro pre x post heq
  have hbp := buildO_parent (scanHeaders text) pre post x heq
  exact ⟨fun hns => hbp.1 hns, fun p hp => hbp.2 p hp⟩

/-- Claim C5, amended: in the tag tree of a collision-free input every
page node is a leaf.  Header nodes are not leaves in general: the outline
builder nests deeper headers below their section header, see the
counterexample. -/
theorem page_nodes_are_leaves_of_collisionFree (es : List (Option TagIndexEntry))
    (hcf : CollisionFree es) :
    ∀ n, InF n (getTagTree (Except.ok es)).nodes → n.data.nodeType = .page →
      n.nodes = [] := by
  intro n hinf hty
  obtain ⟨C, hwf⟩ :=
    wfn_of_inf hinf (fun c hc => ⟨[], (buildTagTree_wfn es hcf).1 c hc⟩)
  exact hwf.page_nodes hty

/-- Claim C5, witness: a page node of the scenario tree is a leaf. -/
theorem page_node_leaf_witness :
    CollisionFree scenarioEntries ∧ (pageNode "p1").nodes = [] :=
  ⟨by decide,
    page_nodes_are_leaves_of_collisionFree scenarioEntries (by decide) (pageNode "p1")
      (InF.deeper
        (show TreeNode.mk ⟨"x", "x", .tag, 1, 0, 0⟩ [pageNode "p1"] ∈
          [TreeNode.mk ⟨"a", "a", .folder, 0, 0, 0⟩
              [TreeNode.mk ⟨"a/b", "b", .tag, 1, 0, 0⟩ [pageNode "p1"],
               TreeNode.mk ⟨"a/c", "c", .tag, 2, 0, 0⟩ [pageNode "p2", pageNode "p3"]],
            TreeNode.mk ⟨"x", "x", .tag, 1, 0, 0⟩ [pageNode "p1"]] from by simp)
        (InF.here (show pageNode "p1" ∈ [pageNode "p1"] from by simp))) rfl⟩

/-- Claim C5, counterexample: for the document with a level-1 and a
level-2 header the outline contains a header node with a non-empty child
list, so header nodes are not always leaves. -/
theorem header_node_child_counterexample :
    ∃ n, InF n (getOutlineTree (Except.ok hdrText)).nodes ∧
      n.data.nodeType = NodeType.header ∧ n.nodes ≠ [] := by
  refine ⟨TreeNode.mk ⟨"header-0", "A", .header, 0, 1, 0⟩
      [TreeNode.mk ⟨"header-1", "B", .header, 0, 2, 4⟩ []], ?_, rfl, by simp⟩
  have h9 : buildOutline (scanHeaders hdrText) =
      [TreeNode.mk ⟨"header-0", "A", .header, 0, 1, 0⟩
         [TreeNode.mk ⟨"header-1", "B", .header, 0, 2, 4⟩ []]] := by
    have hscan : scanHeaders hdrText =
        [⟨"header-0", "A", .header, 0, 1, 0⟩, ⟨"header-1", "B", .header, 0, 2, 4⟩] := rfl
    rw [hscan]
    simp [buildOutline, insertHeader]
  show InF _ (buildOutline (scanHeaders hdrText))
  rw [h9]
  exact InF.here (List.mem_singleton.mpr rfl)

/-- Claim C6, confirmed: the concrete scenario input produces exactly the
forest of the specification: folder `a` with tag children `b` and `c`
carrying their sorted pages and counts, and the top-level tag `x`. -/
theorem tagTree_scenario : getTagTree (Except.ok scenarioEntries) =
    ⟨[TreeNode.mk ⟨"a", "a", .folder, 0, 0, 0⟩
        [TreeNode.mk ⟨"a/b", "b", .tag, 1, 0, 0⟩ [pageNode "p1"],
         TreeNode.mk ⟨"a/c", "c", .tag, 2, 0, 0⟩ [pageNode "p2", pageNode "p3"]],
      TreeNode.mk ⟨"x", "x", .tag, 1, 0, 0⟩ [pageNode "p1"]], false⟩ := rfl

/-- Claim C7, confirmed: the document `# A\n## B\ntext\n# C` yields the
outline forest with header `A` at position 0 holding the single child `B`
at position 4, and the childless header `C` at position 14. -/
theorem outline_scenario :
    getOutlineTree (Except.ok outlineText) =
      ⟨[TreeNode.mk ⟨"header-0", "A", .header, 0, 1, 0⟩
          [TreeNode.mk ⟨"header-1", "B", .header, 0, 2, 4⟩ []],
        TreeNode.mk ⟨"header-3", "C", .header, 0, 1, 14⟩ []], false⟩ := by
  show TreeResult.mk (buildOutline (scanHeaders outlineText)) false = _
  have hscan : scanHeaders outlineText =
      [⟨"header-0", "A", .header, 0, 1, 0⟩, ⟨"header-1", "B", .header, 0, 2, 4⟩,
       ⟨"header-3", "C", .header, 0, 1, 14⟩] := rfl
  rw [hscan]
  have hb : buildOutline
      [⟨"header-0", "A", .header, 0, 1, 0⟩, ⟨"header-1", "B", .header, 0, 2, 4⟩,
       ⟨"header-3", "C", .header, 0, 1, 14⟩] =
      [TreeNode.mk ⟨"header-0", "A", .header, 0, 1, 0⟩
         [TreeNode.mk ⟨"header-1", "B", .header, 0, 2, 4⟩ []],
       TreeNode.mk ⟨"header-3", "C", .header, 0, 1, 14⟩ []] := by
    simp [buildOutline, insertHeader]
  rw [hb]

/-- Claim C8, confirmed: when the upstream fetch throws, each builder
returns the empty forest and flashes the error notification instead of
propagating the exception; both builders are total functions of the fetch
outcome. -/
theorem builders_catch_fetch_errors (msg : String) :
    getTagTree (Except.error msg) = ⟨[], true⟩ ∧
    getOutlineTree (Except.error msg) = ⟨[], true⟩ :=
  ⟨rfl, rfl⟩

/-- Claim C9, amended: on a settings object that fails schema validation
`getPlugConfig` returns the full default configuration (position `lhs`,
size 320) and flashes the error notification; the notification is not
deduplicated — every failing call flashes it, so a session makes one
notification per invalid call. -/
theorem plugConfig_defaults_on_invalid (u : UserConfig)
    (h : parseConfig u = none) :
    getPlugConfig u = (⟨Position.lhs, 320⟩, true) ∧
    ∀ calls : List UserConfig,
      configNotifications calls =
        (calls.filter (fun v => (parseConfig v).isNone)).length := by
  constructor
  · unfold getPlugConfig
    rw [h]
  · exact configNotifications_eq

/-- Claim C9, witness: the invalid settings object falls back to the
defaults with a notification. -/
theorem plugConfig_defaults_witness :
    parseConfig badConfig = none ∧
    getPlugConfig badConfig = (⟨Position.lhs, 320⟩, true) :=
  ⟨rfl, (plugConfig_defaults_on_invalid badConfig rfl).1⟩

/-- Claim C9, counterexample: two consecutive calls with the same invalid
settings flash the notification twice — `config.ts` keeps no
deduplication state. -/
theorem plugConfig_notification_counterexample :
    parseConfig badConfig = none ∧
    configNotifications [badConfig, badConfig] = 2 :=
  ⟨rfl, rfl⟩

/-- Claim C10, confirmed: entries whose name or page is missing, empty or
not a string are skipped silently — the tree equals the tree of the
sublist of valid entries. -/
theorem tagTree_skips_invalid_entries (es : List (Option TagIndexEntry)) :
    getTagTree (Except.ok es) =
      getTagTree (Except.ok (es.filter (fun e => (validEntry e).isSome))) := by
  show TreeResult.mk (buildTagTree es) false =
    TreeResult.mk (buildTagTree (es.filter (fun e => (validEntry e).isSome))) false
  unfold buildTagTree
  rw [tagPageMap_filter]
